import Mathlib

/-!
Verification of the shorten-imports codemod (scripts/shorten-imports.js).

The program is shallowly embedded: JavaScript strings are modelled as
lists of characters (JS string indices count UTF-16 units; the model
counts characters, which agrees on the code points used here), the
filesystem consulted through fs.existsSync is an explicit list of
existing paths, and the TypeScript parse of a file is a list of literal
nodes carrying their offsets, raw source span and cooked text.  Each
definition mirrors one function of the source file; theorems at the end
settle the specification claims.
-/

namespace ShortenImports

/-- Model of a JavaScript string as a list of characters. -/
abbrev Str := List Char

/-- Coercion from a Lean string literal into the model. -/
def str (x : String) : Str := x.data

/-! ## Character-level helpers shared by the path model -/

/-- Model of JS String.prototype.split with a single-character separator:
splitting never yields the empty list, and adjacent separators produce
empty fields, exactly as in JavaScript. -/
def splitOnChar (c : Char) : Str → List Str
  | [] => [[]]
  | x :: xs =>
    match splitOnChar c xs with
    | [] => [[]]
    | h :: t => if x = c then [] :: h :: t else (x :: h) :: t

/-- Index of the last occurrence of a character, if any. -/
def lastIdxOf (c : Char) : Str → Option Nat
  | [] => none
  | x :: xs =>
    match lastIdxOf c xs with
    | some i => some (i + 1)
    | none => if x = c then some 0 else none

/-! ## Model of the Node path module (POSIX flavour)

The program runs path.resolve, path.relative, path.join, path.dirname
and path.extname on slash-separated absolute paths.  The model collapses
".", ".." and empty segments the way the POSIX implementation does for
absolute inputs; a relative base never occurs because every base handed
to these helpers is produced by an earlier resolve. -/

/-- Collapse the segment list of a path: drop empty and "." segments and
let ".." pop the previous segment (excess ".." at the root is dropped,
as for absolute POSIX paths). -/
def collapse (segs : List Str) : List Str :=
  segs.foldl
    (fun acc seg =>
      if seg = [] ∨ seg = str "." then acc
      else if seg = str ".." then acc.dropLast
      else acc ++ [seg])
    []

/-- Model of path.isAbsolute. -/
def isAbsolute (p : Str) : Bool := List.isPrefixOf (str "/") p

/-- A path segment that collapse keeps verbatim: nonempty and neither
"." nor "..". -/
def CleanSeg (s : Str) : Prop := s ≠ [] ∧ s ≠ str "." ∧ s ≠ str ".."

instance (s : Str) : Decidable (CleanSeg s) :=
  inferInstanceAs (Decidable (s ≠ [] ∧ s ≠ str "." ∧ s ≠ str ".."))

/-- Normalise an absolute path (model of path.resolve on a single
absolute argument). -/
def resolveAbs (p : Str) : Str :=
  str "/" ++ List.intercalate (str "/") (collapse (splitOnChar '/' p))

/-- Model of path.resolve(base, rel) where base is absolute. -/
def pathResolve (base rel : Str) : Str :=
  if isAbsolute rel then resolveAbs rel else resolveAbs (base ++ str "/" ++ rel)

/-- Length of the longest common prefix of two segment lists. -/
def commonPrefixLen : List Str → List Str → Nat
  | a :: as, b :: bs => if a = b then 1 + commonPrefixLen as bs else 0
  | _, _ => 0

/-- Model of path.relative(fromP, toP) for absolute arguments: climb out
of the uncommon part of fromP with ".." segments, then descend into
toP. -/
def pathRelative (fromP toP : Str) : Str :=
  let f := collapse (splitOnChar '/' fromP)
  let t := collapse (splitOnChar '/' toP)
  let c := commonPrefixLen f t
  List.intercalate (str "/") (List.replicate (f.length - c) (str "..") ++ t.drop c)

/-- Model of path.dirname for slash-clean inputs. -/
def dirname (p : Str) : Str :=
  match lastIdxOf '/' p with
  | none => str "."
  | some 0 => str "/"
  | some i => p.take i

/-- Model of path.extname: the suffix of the basename from its last dot,
with a dot in first position (a dotfile) not counting as an extension. -/
def extname (p : Str) : Str :=
  let base := match (splitOnChar '/' p).getLast? with
    | some b => b
    | none => []
  match lastIdxOf '.' base with
  | none => []
  | some 0 => []
  | some i => base.drop i

/-- Model of path.join of two slash-clean parts. -/
def pathJoin (a b : Str) : Str :=
  if a = [] then b
  else if List.isSuffixOf (str "/") a then a ++ b
  else a ++ str "/" ++ b

/-- Model of the variadic path.join, folded left as Node does. -/
def pathJoinMany : Str → List Str → Str
  | a, [] => a
  | a, b :: rest => pathJoinMany (pathJoin a b) rest

/-! ## Filesystem model -/

/-- Explicit model of the filesystem consulted through fs.existsSync:
the list of paths (files and directories) that exist during the run. -/
structure FileSystem where
  existing : List Str
deriving DecidableEq

/-- Model of fs.existsSync. -/
def existsSync (fsx : FileSystem) (p : Str) : Bool := fsx.existing.contains p

/-! ## Small helpers of the script (toPosix, stripExt, hasImportExt,
isRelative), each mirroring the function of the same name -/

/-- Model of toPosix: split on the platform separator and re-join with
"/" (the POSIX separator is "/", so this is the identity in the model,
kept in the source's shape). -/
def toPosix (p : Str) : Str :=
  List.intercalate (str "/") (splitOnChar '/' p)

/-- Model of stripExt: remove a trailing .ts/.tsx/.js/.jsx extension
(the regex replaces at most one anchored match). -/
def stripExt (p : Str) : Str :=
  if List.isSuffixOf (str ".tsx") p then p.take (p.length - 4)
  else if List.isSuffixOf (str ".jsx") p then p.take (p.length - 4)
  else if List.isSuffixOf (str ".ts") p then p.take (p.length - 3)
  else if List.isSuffixOf (str ".js") p then p.take (p.length - 3)
  else p

/-- Model of hasImportExt: does the specifier end in a supported
extension. -/
def hasImportExt (spec : Str) : Bool :=
  List.isSuffixOf (str ".tsx") spec || List.isSuffixOf (str ".jsx") spec ||
  List.isSuffixOf (str ".ts") spec || List.isSuffixOf (str ".js") spec

/-- Model of isRelative: the specifier starts with a dot. -/
def isRelative (spec : Str) : Bool := List.isPrefixOf (str ".") spec

/-- SUPPORTED_EXTS in its insertion (hence iteration) order. -/
def supportedExts : List Str := [str ".ts", str ".tsx", str ".js", str ".jsx"]

/-! ## Alias matchers (parseStarPattern, buildAliasMatchers) -/

/-- Decomposition of a pattern at its first "*" (parseStarPattern).
The source function is total: when the pattern has no star the whole
pattern is the prefix, otherwise the prefix is the text before the
first star and the suffix is everything after it, even if that suffix
still contains further "*" characters. -/
structure StarPattern where
  pre : Str
  suf : Str
  hasStar : Bool
deriving DecidableEq

/-- Model of parseStarPattern. -/
def parseStarPattern (pattern : Str) : StarPattern :=
  match pattern.findIdx? (· = '*') with
  | none => ⟨pattern, [], false⟩
  | some idx => ⟨pattern.take idx, pattern.drop (idx + 1), true⟩

/-- One resolved mapping rule (the object pushed by buildAliasMatchers).
Field names follow the source (aliasPrefix, aliasSuffix, targetSuffix
are shortened to aliasPre, aliasSuf, targetSuf). -/
structure AliasMatcher where
  aliasPre : Str
  aliasSuf : Str
  targetPrefixAbs : Str
  targetSuf : Str
  hasStar : Bool
deriving DecidableEq

/-- Matchers of one configuration, with its effective baseUrl. -/
structure AliasInfo where
  baseUrl : Str
  matchers : List AliasMatcher
deriving DecidableEq

/-- Matcher list built from the paths mapping, in entry order.  The
source guards each entry with a null-check on the parsed patterns, but
parseStarPattern never returns null, so the guard never skips; the model
reflects the executed behaviour. -/
def buildMatcherList (baseUrl : Str) (paths : List (Str × List Str)) : List AliasMatcher :=
  (paths.map (fun ap =>
    ap.2.map (fun targetPattern =>
      let al := parseStarPattern ap.1
      let tg := parseStarPattern targetPattern
      { aliasPre := al.pre
        aliasSuf := al.suf
        targetPrefixAbs := pathResolve baseUrl tg.pre
        targetSuf := tg.suf
        hasStar := al.hasStar }))).flatten

/-- Model of buildAliasMatchers, taking the externally parsed
configuration as the paths mapping plus the already-resolved effective
baseUrl; an empty mapping yields none (null). -/
def buildAliasMatchers (paths : List (Str × List Str)) (baseUrl : Str) : Option AliasInfo :=
  if paths.isEmpty then none
  else some ⟨baseUrl, buildMatcherList baseUrl paths⟩

/-! ## Candidate ordering

Both resolvers sort their candidate lists with the comparator
(a, b) => a.length - b.length || a.localeCompare(b) and return the first
element.  The comparator is a linear order (length first, then
lexicographic comparison of the text); a comparison sort returns the
unique sorted permutation, so the model uses insertion sort under the
same order. -/

/-- Lexicographic comparison of character lists (model of the string
comparison used for the tie-break). -/
def lexLe : Str → Str → Bool
  | [], _ => true
  | _ :: _, [] => false
  | a :: as, b :: bs => if a < b then true else if b < a then false else lexLe as bs

/-- Candidate order: shorter first, ties broken lexicographically. -/
def aliasLe (a b : Str) : Prop :=
  a.length < b.length ∨ (a.length = b.length ∧ lexLe a b = true)

instance : DecidableRel aliasLe := fun a b =>
  inferInstanceAs (Decidable (a.length < b.length ∨ (a.length = b.length ∧ lexLe a b = true)))

theorem lexLe_refl (a : Str) : lexLe a a = true := by
  induction a with
  | nil => rfl
  | cons x xs ih => simp [lexLe, ih]

theorem lexLe_total (a b : Str) : lexLe a b = true ∨ lexLe b a = true := by
  induction a generalizing b with
  | nil => left; rfl
  | cons x xs ih =>
    cases b with
    | nil => right; rfl
    | cons y ys =>
      rcases lt_trichotomy x y with h | h | h
      · left; simp [lexLe, h]
      · subst h
        rcases ih ys with h' | h'
        · left; simp [lexLe, h', lt_irrefl]
        · right; simp [lexLe, h', lt_irrefl]
      · right; simp [lexLe, h]

theorem lexLe_trans {a b c : Str} (hab : lexLe a b = true) (hbc : lexLe b c = true) :
    lexLe a c = true := by
  induction a generalizing b c with
  | nil => rfl
  | cons x xs ih =>
    cases b with
    | nil => simp [lexLe] at hab
    | cons y ys =>
      cases c with
      | nil => simp [lexLe] at hbc
      | cons z zs =>
        simp only [lexLe] at hab hbc ⊢
        by_cases hxy : x < y
        · by_cases hyz : y < z
          · simp [lt_trans hxy hyz]
          · by_cases hzy : z < y
            · simp [hyz, hzy] at hbc
            · have : y = z := le_antisymm (not_lt.mp hzy) (not_lt.mp hyz)
              subst this; simp [hxy]
        · by_cases hyx : y < x
          · simp [hxy, hyx] at hab
          · have hxyeq : x = y := le_antisymm (not_lt.mp hyx) (not_lt.mp hxy)
            subst hxyeq
            simp only [lt_irrefl, if_false] at hab
            by_cases hyz : x < z
            · simp [hyz]
            · by_cases hzy : z < x
              · simp [hyz, hzy] at hbc
              · have : x = z := le_antisymm (not_lt.mp hzy) (not_lt.mp hyz)
                subst this
                simp only [lt_irrefl, if_false] at hbc ⊢
                exact ih hab hbc

instance : IsTotal Str aliasLe := by
  constructor
  intro a b
  rcases lt_trichotomy a.length b.length with h | h | h
  · exact Or.inl (Or.inl h)
  · rcases lexLe_total a b with h' | h'
    · exact Or.inl (Or.inr ⟨h, h'⟩)
    · exact Or.inr (Or.inr ⟨h.symm, h'⟩)
  · exact Or.inr (Or.inl h)

instance : IsTrans Str aliasLe := by
  constructor
  intro a b c hab hbc
  rcases hab with h1 | ⟨h1, h1'⟩
  · rcases hbc with h2 | ⟨h2, _⟩
    · exact Or.inl (lt_trans h1 h2)
    · exact Or.inl (h2 ▸ h1)
  · rcases hbc with h2 | ⟨h2, h2'⟩
    · exact Or.inl (h1 ▸ h2)
    · exact Or.inr ⟨h1.trans h2, lexLe_trans h1' h2'⟩

/-- Sort candidates under the comparator and ascending order (model of
candidates.sort((a, b) => a.length - b.length || a.localeCompare(b))). -/
def sortCandidates (l : List Str) : List Str := List.insertionSort aliasLe l

/-! ## SpecifierResolver: relative-path mode (buildAliasForTarget) -/

/-- Candidates collected by the loop of buildAliasForTarget, in matcher
order. -/
def targetCandidates (targetAbs : Str) (matchers : List AliasMatcher) (keepExt : Bool) :
    List Str :=
  matchers.filterMap (fun m =>
    if List.isPrefixOf m.targetPrefixAbs targetAbs then
      let remainder := targetAbs.drop m.targetPrefixAbs.length
      if m.targetSuf ≠ [] ∧ ¬ (List.isSuffixOf m.targetSuf remainder) then none
      else
        let inner := if m.targetSuf ≠ [] then remainder.take (remainder.length - m.targetSuf.length)
          else remainder
        let innerPosix :=
          let ip := toPosix inner
          if List.isPrefixOf (str "/") ip then ip.drop 1 else ip
        let aliasPath := m.aliasPre ++ (if m.hasStar then innerPosix else []) ++ m.aliasSuf
        some (if keepExt then aliasPath else stripExt aliasPath)
    else none)

/-- Model of buildAliasForTarget: collect candidates, sort, return the
first (null when there is none). -/
def buildAliasForTarget (targetAbs : Str) (matchers : List AliasMatcher) (keepExt : Bool) :
    Option Str :=
  (sortCandidates (targetCandidates targetAbs matchers keepExt)).head?

/-! ## SpecifierResolver: bare-specifier mode (resolveBareAlias) and its
filesystem checks -/

/-- Model of isWithinRoot. -/
def isWithinRoot (rootDir targetAbs : Str) : Bool :=
  let rel := pathRelative rootDir targetAbs
  if rel = [] then true
  else !(List.isPrefixOf (str "..") rel) && !(isAbsolute rel)

/-- Model of resolveExistingModulePath: the exact path, then each
supported extension, then an index file inside a directory of that
name. -/
def resolveExistingModulePath (fsx : FileSystem) (targetAbs : Str) : Option Str :=
  if existsSync fsx targetAbs then some targetAbs
  else if extname targetAbs ≠ [] then none
  else
    match supportedExts.find? (fun ext => existsSync fsx (targetAbs ++ ext)) with
    | some ext => some (targetAbs ++ ext)
    | none =>
      match supportedExts.find? (fun ext =>
          existsSync fsx (pathJoin targetAbs (str "index" ++ ext))) with
      | some ext => some (pathJoin targetAbs (str "index" ++ ext))
      | none => none

/-- Candidates collected by the loop of resolveBareAlias, in matcher
order. -/
def bareCandidates (spec : Str) (matchers : List AliasMatcher) (baseUrl rootDir : Str)
    (keepExt : Bool) (fsx : FileSystem) : List Str :=
  matchers.filterMap (fun m =>
    if m.hasStar then
      let innerTarget :=
        if m.targetSuf ≠ [] ∧ List.isSuffixOf m.targetSuf spec then
          spec.take (spec.length - m.targetSuf.length)
        else spec
      let unresolvedTargetAbs := pathResolve m.targetPrefixAbs (innerTarget ++ m.targetSuf)
      match resolveExistingModulePath fsx unresolvedTargetAbs with
      | none => none
      | some resolvedTargetAbs =>
        if !(isWithinRoot rootDir resolvedTargetAbs) then none
        else
          let aliasPath := m.aliasPre ++ spec ++ m.aliasSuf
          some (if keepExt then aliasPath else stripExt aliasPath)
    else
      let unresolvedTargetAbs := pathResolve m.targetPrefixAbs m.targetSuf
      match resolveExistingModulePath fsx unresolvedTargetAbs with
      | none => none
      | some resolvedTargetAbs =>
        if !(isWithinRoot rootDir resolvedTargetAbs) then none
        else
          let targetRel := toPosix (pathRelative baseUrl unresolvedTargetAbs)
          if targetRel ≠ spec then none
          else
            let aliasPath := m.aliasPre ++ m.aliasSuf
            some (if keepExt then aliasPath else stripExt aliasPath))

/-- Model of resolveBareAlias. -/
def resolveBareAlias (spec : Str) (matchers : List AliasMatcher) (baseUrl rootDir : Str)
    (keepExt : Bool) (fsx : FileSystem) : Option Str :=
  (sortCandidates (bareCandidates spec matchers baseUrl rootDir keepExt fsx)).head?

/-! ## Package shadow check (getPackageNameFromSpecifier,
hasNodeModulesPackage) -/

/-- Model of getPackageNameFromSpecifier. -/
def getPackageNameFromSpecifier (spec : Str) : Option Str :=
  if spec = [] then none
  else
    let parts := splitOnChar '/' spec
    if List.isPrefixOf (str "@") spec then
      match parts with
      | p0 :: p1 :: _ => some (p0 ++ str "/" ++ p1)
      | _ => none
    else
      match parts with
      | p0 :: _ => if p0 = [] then none else some p0
      | [] => none

/-- Directories visited by the upward while-loop of
hasNodeModulesPackage: the start directory, then each parent, stopping
at the resolved root or at a dirname fixpoint.  The loop shortens its
path at each step through dirname, so a fuel of the path length plus two
always covers the walk. -/
def upDirs : Nat → Str → Str → List Str
  | 0, current, _ => [current]
  | fuel + 1, current, root =>
    current ::
      (if current = root then []
       else
         let parent := dirname current
         if parent = current then [] else upDirs fuel parent root)

/-- Model of hasNodeModulesPackage (the cache argument of the source is
transparent for the result and omitted).  The loop returns true exactly
when some visited directory contains node_modules/<package>. -/
def hasNodeModulesPackage (packageName startDir rootDir : Str) (fsx : FileSystem) : Bool :=
  let packageSegments := splitOnChar '/' packageName
  (upDirs (startDir.length + 2) startDir rootDir).any
    (fun dir => existsSync fsx (pathJoinMany dir (str "node_modules" :: packageSegments)))

/-! ## Parse model of one source file

The editor walks the TypeScript syntax tree.  The model of a file is its
text plus the list of its string-like literal nodes in document order.
A literal carries the offset of its inner span (after the opening
delimiter, so node.getStart(sourceFile) + 1), the raw source text of
that span (node.getEnd() - 1 is the offset after it), the cooked text
exposed as node.text, the syntactic site of the node and whether it is a
no-substitution template rather than a plain string literal. -/

/-- Syntactic site of a literal node. -/
inductive LitKind
  /-- moduleSpecifier of an ImportDeclaration or ExportDeclaration. -/
  | staticSpec
  /-- first argument of a dynamic import() call expression. -/
  | dynamicArg
  /-- any other string or template literal position. -/
  | plain
deriving DecidableEq

/-- One string or no-substitution template literal of the parsed file. -/
structure Lit where
  start : Nat
  raw : Str
  text : Str
  kind : LitKind
  isTemplate : Bool
deriving DecidableEq

/-- Offset just past the inner span of a literal (node.getEnd() - 1). -/
def litStop (l : Lit) : Nat := l.start + l.raw.length

/-- Cooked text of a raw literal span: a backslash escapes the next
character (the cases arising here are escaped quotes and backslashes,
on which this agrees with the TypeScript scanner). -/
def unescape : Str → Str
  | [] => []
  | '\\' :: c :: rest => c :: unescape rest
  | c :: rest => c :: unescape rest

/-- Well-formedness of one literal against the file text: the opening
delimiter sits before the inner span, the closing one after it, the
inner span carries exactly the raw text, and the cooked text is its
unescaping. -/
def LitOK (sourceText : Str) (l : Lit) : Prop :=
  1 ≤ l.start ∧ litStop l + 1 ≤ sourceText.length ∧
  (sourceText.drop l.start).take l.raw.length = l.raw ∧
  l.text = unescape l.raw

/-- Successive literals are separated by at least their two delimiter
characters (the closing one of the first and the opening one of the
second). -/
def litsSeparated : List Lit → Bool
  | [] => true
  | [_] => true
  | a :: b :: rest => decide (litStop a + 2 ≤ b.start) && litsSeparated (b :: rest)

/-- Parse model invariant: every literal is well formed and successive
literals are separated by at least their two delimiters. -/
def ParseOK (sourceText : Str) (lits : List Lit) : Prop :=
  (∀ l ∈ lits, LitOK sourceText l) ∧ litsSeparated lits = true

instance (sourceText : Str) (l : Lit) : Decidable (LitOK sourceText l) :=
  inferInstanceAs (Decidable
    (1 ≤ l.start ∧ litStop l + 1 ≤ sourceText.length ∧
      (sourceText.drop l.start).take l.raw.length = l.raw ∧
      l.text = unescape l.raw))

instance (sourceText : Str) (lits : List Lit) : Decidable (ParseOK sourceText lits) :=
  inferInstanceAs (Decidable
    ((∀ l ∈ lits, LitOK sourceText l) ∧ litsSeparated lits = true))

/-! ## SourceEditor (updateImportsInFile) -/

/-- Per-file environment of updateImportsInFile once a configuration was
found: the matchers and baseUrl of the governing tsconfig, the root
directory given on the command line, the directory of the file being
edited, and the filesystem. -/
structure Env where
  matchers : List AliasMatcher
  baseUrl : Str
  rootDir : Str
  fileDir : Str
  fsx : FileSystem
deriving DecidableEq

/-- rootAbs as computed by updateImportsInFile (path.resolve(rootDir)),
for an absolute root directory. -/
def Env.rootAbs (env : Env) : Str := resolveAbs env.rootDir

/-- Decision taken by queueModuleSpecifierRewrite for a string-literal
specifier with cooked text spec: the replacement queued as an edit, or
none.  A truthiness test on a JS string also excludes the empty
string. -/
def rewriteDecision (env : Env) (spec : Str) : Option Str :=
  if isRelative spec then
    let keepExt := hasImportExt spec
    let targetAbs := pathResolve env.fileDir spec
    match buildAliasForTarget targetAbs env.matchers keepExt with
    | some bestAlias =>
      if bestAlias ≠ [] ∧ bestAlias.length < spec.length then some bestAlias else none
    | none => none
  else
    let keepExt := hasImportExt spec
    match resolveBareAlias spec env.matchers env.baseUrl env.rootAbs keepExt env.fsx with
    | some bestAlias =>
      if bestAlias ≠ [] ∧ bestAlias ≠ spec then
        match getPackageNameFromSpecifier spec with
        | some packageName =>
          if hasNodeModulesPackage packageName env.fileDir env.rootAbs env.fsx then none
          else some bestAlias
        | none => some bestAlias
      else none
    | none => none

/-- Sites visited by the tree walk of updateImportsInFile: the module
specifier of an import or export declaration and the first argument of a
dynamic import() call, and queueModuleSpecifierRewrite then requires a
plain string literal (ts.isStringLiteral). -/
def isModuleSpecifierSite (l : Lit) : Bool :=
  (decide (l.kind = LitKind.staticSpec) || decide (l.kind = LitKind.dynamicArg)) && !l.isTemplate

/-- Rewrite decision for one literal node of the file. -/
def litDecision (env : Env) (l : Lit) : Option Str :=
  if isModuleSpecifierSite l then rewriteDecision env l.text else none

/-- One queued edit: replace the half-open range [start, stop) of the
original text with the replacement text (the source's end field is
named stop, end being reserved in Lean). -/
structure Edit where
  start : Nat
  stop : Nat
  text : Str
deriving DecidableEq

/-- Edit recorded for a literal: its inner span, replaced by the
alias. -/
def editFor (l : Lit) (replacement : Str) : Edit :=
  ⟨l.start, litStop l, replacement⟩

/-- Model of Map.prototype.set keyed by the edit's start offset: an
existing entry is overwritten in place, a new one appended. -/
def mapSet (m : List Edit) (e : Edit) : List Edit :=
  if m.any (fun x => x.start = e.start) then
    m.map (fun x => if x.start = e.start then e else x)
  else m ++ [e]

/-- Edits collected over the literal list by a decision function, in
document order, through the keyed map. -/
def collectEdits (dec : Lit → Option Str) (lits : List Lit) : List Edit :=
  lits.foldl
    (fun m l =>
      match dec l with
      | some a => mapSet m (editFor l a)
      | none => m)
    []

/-- Rename pairs pushed next to each recorded edit. -/
def collectPairs (dec : Lit → Option Str) (lits : List Lit) : List (Str × Str) :=
  lits.filterMap (fun l => (dec l).map (fun a => (l.text, a)))

/-- Descending-start order used to sort the edits before applying
them ((a, b) => b.start - a.start). -/
def editDescLe (a b : Edit) : Prop := b.start ≤ a.start

instance : DecidableRel editDescLe := fun a b =>
  inferInstanceAs (Decidable (b.start ≤ a.start))

instance : IsTotal Edit editDescLe :=
  ⟨fun a b => (Nat.le_total b.start a.start).imp id id⟩

instance : IsTrans Edit editDescLe :=
  ⟨fun _ _ _ hab hbc => Nat.le_trans hbc hab⟩

/-- One splice: output.slice(0, e.start) + e.text + output.slice(e.stop). -/
def spliceOne (output : Str) (e : Edit) : Str :=
  output.take e.start ++ e.text ++ output.drop e.stop

/-- Model of the edit application loop: sort the collected edits by
descending start offset and splice each in turn into the original
text. -/
def applyEdits (sourceText : Str) (edits : List Edit) : Str :=
  (List.insertionSort editDescLe edits).foldl spliceOne sourceText

/-- Result of updateImportsInFile. -/
structure RewriteResult where
  changed : Bool
  text : Str
  updatedPathPairs : List (Str × Str)
deriving DecidableEq

/-- Model of updateImportsInFile on a parsed file (the configuration
lookup and caching happen outside; env is the found configuration).
The changed flag is set exactly when an edit was queued. -/
def updateImportsInFile (env : Env) (sourceText : Str) (lits : List Lit) : RewriteResult :=
  let edits := collectEdits (litDecision env) lits
  let updatedPathPairs := collectPairs (litDecision env) lits
  if edits.isEmpty then ⟨false, sourceText, updatedPathPairs⟩
  else ⟨true, applyEdits sourceText edits, updatedPathPairs⟩

/-- Reparse of the output of updateImportsInFile: each literal keeps its
site, a rewritten one now carries the alias as its raw span (the splice
replaces exactly the inner span), and starts shift by the accumulated
length difference (dOut and dOrig are the lengths of the output and
original inner spans already passed). -/
def rewrittenLits (env : Env) : List Lit → Nat → Nat → List Lit
  | [], _, _ => []
  | l :: ls, dOut, dOrig =>
    match litDecision env l with
    | some a =>
      { l with start := l.start + dOut - dOrig, raw := a, text := unescape a } ::
        rewrittenLits env ls (dOut + a.length) (dOrig + l.raw.length)
    | none =>
      { l with start := l.start + dOut - dOrig } ::
        rewrittenLits env ls (dOut + l.raw.length) (dOrig + l.raw.length)

/-! ## ReferenceRewriter (buildStableReplacementMap,
updatePathReferencesInFile) -/

/-- Model of Map.prototype.get on an insertion-ordered map. -/
def mapGet (m : List (Str × Str)) (k : Str) : Option Str :=
  (m.find? (fun kv => kv.1 = k)).map (fun kv => kv.2)

/-- Model of isImportExportModuleSpecifier: the parent is an import or
export declaration and the node is its module specifier.  A dynamic
argument of import() has a call expression as parent; it is not excluded. -/
def isImportExportModuleSpecifier (l : Lit) : Bool :=
  decide (l.kind = LitKind.staticSpec)

/-- Decision taken by the visitor of updatePathReferencesInFile for one
string or no-substitution template literal. -/
def refsDecision (replacementMap : List (Str × Str)) (l : Lit) : Option Str :=
  if isImportExportModuleSpecifier l then none
  else
    match mapGet replacementMap l.text with
    | some nextValue =>
      if nextValue ≠ [] ∧ nextValue ≠ l.text then some nextValue else none
    | none => none

/-- Result of updatePathReferencesInFile. -/
structure RefsResult where
  changed : Bool
  text : Str
deriving DecidableEq

/-- Model of updatePathReferencesInFile on a parsed file. -/
def updatePathReferencesInFile (replacementMap : List (Str × Str)) (sourceText : Str)
    (lits : List Lit) : RefsResult :=
  if replacementMap.isEmpty then ⟨false, sourceText⟩
  else
    let edits := collectEdits (refsDecision replacementMap) lits
    if edits.isEmpty then ⟨false, sourceText⟩
    else ⟨true, applyEdits sourceText edits⟩

/-- Result of buildStableReplacementMap. -/
structure StableResult where
  stableMap : List (Str × Str)
  conflicts : List Str
deriving DecidableEq

/-- Model of buildStableReplacementMap: the rename multimap is an
insertion-ordered map from old specifier text to the set (modelled as a
duplicate-free list) of new specifier texts; singleton value sets go to
the stable map, all others to the conflict list. -/
def buildStableReplacementMap (updatedPathMap : List (Str × List Str)) : StableResult :=
  updatedPathMap.foldl
    (fun acc kv =>
      match kv.2 with
      | [v] => { acc with stableMap := acc.stableMap ++ [(kv.1, v)] }
      | _ => { acc with conflicts := acc.conflicts ++ [kv.1] })
    ⟨[], []⟩

/-- Reference form of the collected edits: one edit per literal the
decision fires on, in document order. -/
def editsOf (dec : Lit → Option Str) (lits : List Lit) : List Edit :=
  lits.filterMap (fun l => (dec l).map (editFor l))

/-- Reference semantics of applying the edits: the original text with
exactly each recorded range replaced by its replacement, ranges taken in
ascending order. -/
def replaceEachRange : List Edit → Str → Str
  | [], t => t
  | e :: es, t => t.take e.start ++ e.text ++ (replaceEachRange es t).drop e.stop

/-- Sum of the lengths of the replaced ranges of an edit list. -/
def spanSum (edits : List Edit) : Nat :=
  (edits.map (fun e => e.stop - e.start)).sum

/-- Sum of the lengths of the replacement texts of an edit list. -/
def replSum (edits : List Edit) : Nat :=
  (edits.map (fun e => e.text.length)).sum

/-! ## Concrete example runs

Small closed configurations, files and parses used below to instantiate
the theorems and to exhibit counterexamples.  Each is a reachable run of
the program: a tsconfig paths mapping, a filesystem, one file and its
literal nodes. -/

/-- Chained configuration: alias "b" maps to physical "a" and alias "c"
to physical "b" (paths mapping { "b": ["a"], "c": ["b"] }). -/
def chainEnv : Env :=
  ⟨buildMatcherList (str "/r") [(str "b", [str "a"]), (str "c", [str "b"])],
    str "/r", str "/r", str "/r", ⟨[str "/r/a.ts", str "/r/b.ts"]⟩⟩

/-- File text of the chained example. -/
def chainText : Str := str "import \"a\";"

/-- The one literal of the chained example. -/
def chainLit : Lit := ⟨8, str "a", str "a", LitKind.staticSpec, false⟩

/-- Configuration whose alias pattern (the four characters a\"b) equals
the raw span of an escaped specifier literal whose cooked text is the
three characters a"b; the physical side is the path a"b under the
root (paths mapping written in JSON as { "a\\\"b": ["a\"b"] }). -/
def escEnv : Env :=
  ⟨buildMatcherList (str "/r") [(str "a\\\"b", [str "a\"b"])],
    str "/r", str "/r", str "/r", ⟨[str "/r/a\"b.ts"]⟩⟩

/-- File text import "a\"b"; containing one escaped specifier. -/
def escText : Str := str "import \"a\\\"b\";"

/-- The escaped literal: raw span a\"b, cooked text a"b. -/
def escLit : Lit := ⟨8, str "a\\\"b", str "a\"b", LitKind.staticSpec, false⟩

/-- Configuration with a one-character alias for files under aa/
(paths mapping { "#*": ["aa/*"] }). -/
def hashEnv : Env :=
  ⟨buildMatcherList (str "/r") [(str "#*", [str "aa/*"])],
    str "/r", str "/r", str "/r", ⟨[]⟩⟩

/-- File with two rewritable relative imports. -/
def hashText : Str := str "import \"./aa/x\";import \"./aa/y\";"

/-- First literal of the two-import file. -/
def hashLitA : Lit := ⟨8, str "./aa/x", str "./aa/x", LitKind.staticSpec, false⟩

/-- Second literal of the two-import file. -/
def hashLitB : Lit := ⟨24, str "./aa/y", str "./aa/y", LitKind.staticSpec, false⟩

/-- Overlapping matchers used to exercise the tie-break: the alias
patterns "@long/*" and "#*" both map to "src/*"
(paths mapping { "@long/*": ["src/*"], "#*": ["src/*"] }). -/
def overlapMatchers : List AliasMatcher :=
  buildMatcherList (str "/r") [(str "@long/*", [str "src/*"]), (str "#*", [str "src/*"])]

/-- Environment where the bare specifier react both matches the mapping
{ "@/*": ["src/*"] } (src/react.ts exists) and names an installed
node_modules package. -/
def shadowEnv : Env :=
  ⟨buildMatcherList (str "/r") [(str "@/*", [str "src/*"])],
    str "/r", str "/r", str "/r/src",
    ⟨[str "/r/src/react.ts", str "/r/node_modules/react"]⟩⟩

/-- File text of a dynamic import call. -/
def dynText : Str := str "import(\"components/X\");"

/-- The argument literal of the dynamic import call. -/
def dynLit : Lit := ⟨8, str "components/X", str "components/X", LitKind.dynamicArg, false⟩

/-- Stable replacement map renaming the dynamic import's text. -/
def dynMap : List (Str × Str) := [(str "components/X", str "@/components/X")]

/-- Rename multimap with one ambiguous key (texts "x" mapped to both
"@/a" and "@/b") and one stable key. -/
def ambigMap : List (Str × List Str) :=
  [(str "x", [str "@/a", str "@/b"]), (str "y", [str "@/y"])]

/-- Plain string literal whose text is the ambiguous key "x". -/
def ambigLit : Lit := ⟨10, str "x", str "x", LitKind.plain, false⟩

/-- File text containing the ambiguous reference. -/
def ambigText : Str := str "jest.mock(\"x\");"

/-! ## Lemmas on candidate selection -/

theorem aliasLe_refl (a : Str) : aliasLe a a := Or.inr ⟨rfl, lexLe_refl a⟩

/-- The head of the sorted candidate list is a candidate and is below
every candidate in the selection order. -/
theorem head_sortCandidates {l : List Str} {a : Str}
    (h : (sortCandidates l).head? = some a) : a ∈ l ∧ ∀ b ∈ l, aliasLe a b := by
  have hperm : (List.insertionSort aliasLe l).Perm l := List.perm_insertionSort aliasLe l
  have hsorted : List.Sorted aliasLe (List.insertionSort aliasLe l) :=
    List.sorted_insertionSort aliasLe l
  unfold sortCandidates at h
  cases hs : List.insertionSort aliasLe l with
  | nil => rw [hs] at h; simp at h
  | cons x t =>
    rw [hs] at h
    simp only [List.head?] at h
    cases h
    rw [hs] at hperm hsorted
    have hmem : a ∈ l := hperm.mem_iff.mp (List.mem_cons_self a t)
    refine ⟨hmem, fun b hb => ?_⟩
    have hb' : b ∈ a :: t := hperm.mem_iff.mpr hb
    rcases List.mem_cons.mp hb' with hba | hbt
    · exact hba ▸ aliasLe_refl a
    · exact (List.pairwise_cons.mp hsorted).1 b hbt

/-! ## Lemmas on the rewrite decision -/

/-- In relative-path mode a replacement is queued only when it is
nonempty and strictly shorter than the original specifier. -/
theorem rewriteDecision_relative {env : Env} {spec a : Str}
    (hrel : isRelative spec = true) (h : rewriteDecision env spec = some a) :
    a ≠ [] ∧ a.length < spec.length ∧
      buildAliasForTarget (pathResolve env.fileDir spec) env.matchers (hasImportExt spec)
        = some a := by
  unfold rewriteDecision at h
  rw [hrel] at h
  simp only [if_true] at h
  cases hb : buildAliasForTarget (pathResolve env.fileDir spec) env.matchers
      (hasImportExt spec) with
  | none => rw [hb] at h; exact absurd h (by simp)
  | some best =>
    rw [hb] at h
    dsimp only at h
    by_cases hc : best ≠ [] ∧ best.length < spec.length
    · rw [if_pos hc] at h
      cases h
      exact ⟨hc.1, hc.2, rfl⟩
    · rw [if_neg hc] at h
      exact absurd h (by simp)

/-- In bare-specifier mode a replacement is queued only when it is
nonempty and different from the original specifier. -/
theorem rewriteDecision_bare {env : Env} {spec a : Str}
    (hrel : isRelative spec = false) (h : rewriteDecision env spec = some a) :
    a ≠ [] ∧ a ≠ spec := by
  unfold rewriteDecision at h
  rw [hrel] at h
  simp only [Bool.false_eq_true, if_false] at h
  cases hb : resolveBareAlias spec env.matchers env.baseUrl env.rootAbs (hasImportExt spec)
      env.fsx with
  | none => rw [hb] at h; exact absurd h (by simp)
  | some best =>
    rw [hb] at h
    dsimp only at h
    by_cases hc : best ≠ [] ∧ best ≠ spec
    · rw [if_pos hc] at h
      rcases hp : getPackageNameFromSpecifier spec with _ | p
      · rw [hp] at h; dsimp only at h; cases h; exact hc
      · rw [hp] at h
        dsimp only at h
        by_cases hn : hasNodeModulesPackage p env.fileDir env.rootAbs env.fsx = true
        · rw [if_pos hn] at h; exact absurd h (by simp)
        · rw [if_neg hn] at h; cases h; exact hc
    · rw [if_neg hc] at h
      exact absurd h (by simp)

/-- Whatever the mode, a queued replacement differs from the cooked
text of the literal it replaces. -/
theorem rewriteDecision_ne {env : Env} {spec a : Str}
    (h : rewriteDecision env spec = some a) : a ≠ spec := by
  cases hrel : isRelative spec with
  | true =>
    have hlt := (rewriteDecision_relative hrel h).2.1
    intro he
    exact absurd hlt (by rw [he]; exact lt_irrefl _)
  | false => exact (rewriteDecision_bare hrel h).2

/-- Shadow suppression inside queueModuleSpecifierRewrite: when the
package name of a bare specifier is installed in a reachable
node_modules directory, no replacement is queued. -/
theorem rewriteDecision_shadow {env : Env} {spec p : Str}
    (hrel : isRelative spec = false)
    (hp : getPackageNameFromSpecifier spec = some p)
    (hn : hasNodeModulesPackage p env.fileDir env.rootAbs env.fsx = true) :
    rewriteDecision env spec = none := by
  unfold rewriteDecision
  rw [hrel]
  simp only [Bool.false_eq_true, if_false]
  cases hb : resolveBareAlias spec env.matchers env.baseUrl env.rootAbs (hasImportExt spec)
      env.fsx with
  | none => rfl
  | some best =>
    dsimp only
    by_cases hc : best ≠ [] ∧ best ≠ spec
    · rw [if_pos hc, hp]
      dsimp only
      rw [if_pos hn]
    · rw [if_neg hc]

/-- Decision at a literal node: a queued replacement differs from the
node's cooked text. -/
theorem litDecision_ne {env : Env} {l : Lit} {a : Str}
    (h : litDecision env l = some a) : a ≠ l.text := by
  unfold litDecision at h
  by_cases hs : isModuleSpecifierSite l = true
  · rw [if_pos hs] at h; exact rewriteDecision_ne h
  · rw [if_neg hs] at h; exact absurd h (by simp)

/-! ## Lemmas on edit collection -/

theorem mapSet_ne_nil (m : List Edit) (e : Edit) : mapSet m e ≠ [] := by
  unfold mapSet
  by_cases hc : m.any (fun x => x.start = e.start) = true
  · rw [if_pos hc]
    intro hmap
    rcases m with _ | ⟨x, xs⟩
    · simp [List.any_nil] at hc
    · simp at hmap
  · rw [if_neg hc]
    simp

theorem mem_mapSet {m : List Edit} {e x : Edit} (h : x ∈ mapSet m e) : x ∈ m ∨ x = e := by
  unfold mapSet at h
  by_cases hc : m.any (fun y => y.start = e.start) = true
  · rw [if_pos hc] at h
    rcases List.mem_map.mp h with ⟨y, hy, hyx⟩
    by_cases hys : y.start = e.start
    · rw [if_pos hys] at hyx; exact Or.inr hyx.symm
    · rw [if_neg hys] at hyx; exact Or.inl (hyx ▸ hy)
  · rw [if_neg hc] at h
    rcases List.mem_append.mp h with h' | h'
    · exact Or.inl h'
    · exact Or.inr (List.mem_singleton.mp h')

/-- Every collected edit stems from some literal the decision fired
on. -/
theorem collectEdits_mem {dec : Lit → Option Str} {lits : List Lit} {e : Edit}
    (h : e ∈ collectEdits dec lits) :
    ∃ l ∈ lits, ∃ a, dec l = some a ∧ e = editFor l a := by
  suffices haux : ∀ (ls : List Lit) (acc : List Edit),
      e ∈ ls.foldl (fun m l => match dec l with
        | some a => mapSet m (editFor l a)
        | none => m) acc →
      e ∈ acc ∨ ∃ l ∈ ls, ∃ a, dec l = some a ∧ e = editFor l a by
    rcases haux lits [] h with h' | h'
    · exact absurd h' (List.not_mem_nil e)
    · exact h'
  intro ls
  induction ls with
  | nil => intro acc h'; exact Or.inl h'
  | cons l rest ih =>
    intro acc h'
    simp only [List.foldl_cons] at h'
    cases hd : dec l with
    | none =>
      rw [hd] at h'
      rcases ih acc h' with h'' | ⟨l', hl', a, ha, he⟩
      · exact Or.inl h''
      · exact Or.inr ⟨l', List.mem_cons_of_mem l hl', a, ha, he⟩
    | some a =>
      rw [hd] at h'
      rcases ih (mapSet acc (editFor l a)) h' with h'' | ⟨l', hl', a', ha', he⟩
      · rcases mem_mapSet h'' with h3 | h3
        · exact Or.inl h3
        · exact Or.inr ⟨l, List.mem_cons_self l rest, a, hd, h3⟩
      · exact Or.inr ⟨l', List.mem_cons_of_mem l hl', a', ha', he⟩

/-- Collected edits are empty exactly when the decision fires on no
literal. -/
theorem collectEdits_eq_nil_iff {dec : Lit → Option Str} {lits : List Lit} :
    collectEdits dec lits = [] ↔ ∀ l ∈ lits, dec l = none := by
  have hne : ∀ (ls : List Lit) (acc : List Edit), acc ≠ [] →
      ls.foldl (fun m l => match dec l with
        | some a => mapSet m (editFor l a)
        | none => m) acc ≠ [] := by
    intro ls
    induction ls with
    | nil => intro acc h; exact h
    | cons l rest ih =>
      intro acc h
      simp only [List.foldl_cons]
      cases hd : dec l with
      | none => exact ih acc h
      | some a => exact ih _ (mapSet_ne_nil acc (editFor l a))
  constructor
  · intro h l hl
    by_contra hne'
    cases hd : dec l with
    | none => exact hne' hd
    | some a =>
      revert h
      suffices haux : ∀ (ls : List Lit) (acc : List Edit), l ∈ ls →
          ls.foldl (fun m l' => match dec l' with
            | some a' => mapSet m (editFor l' a')
            | none => m) acc ≠ [] by
        intro h; exact haux lits [] hl h
      intro ls
      induction ls with
      | nil => intro acc h'; exact absurd h' (List.not_mem_nil l)
      | cons x rest ih =>
        intro acc h'
        simp only [List.foldl_cons]
        rcases List.mem_cons.mp h' with hx | hx
        · subst hx
          rw [hd]
          exact hne rest _ (mapSet_ne_nil acc (editFor l a))
        · cases hdx : dec x with
          | none => exact ih _ hx
          | some a' => exact ih _ hx
  · intro h
    unfold collectEdits
    suffices haux : ∀ (ls : List Lit), (∀ l ∈ ls, dec l = none) → ∀ acc,
        ls.foldl (fun m l => match dec l with
          | some a => mapSet m (editFor l a)
          | none => m) acc = acc by
      exact haux lits h []
    intro ls
    induction ls with
    | nil => intro _ acc; rfl
    | cons l rest ih =>
      intro hall acc
      simp only [List.foldl_cons]
      rw [hall l (List.mem_cons_self l rest)]
      exact ih (fun x hx => hall x (List.mem_cons_of_mem l hx)) acc

/-- Collected pairs are empty exactly when the decision fires on no
literal. -/
theorem collectPairs_eq_nil_iff {dec : Lit → Option Str} {lits : List Lit} :
    collectPairs dec lits = [] ↔ ∀ l ∈ lits, dec l = none := by
  unfold collectPairs
  rw [List.filterMap_eq_nil_iff]
  constructor
  · intro h l hl
    have := h l hl
    cases hd : dec l with
    | none => rfl
    | some a => rw [hd] at this; exact absurd this (by simp)
  · intro h l hl
    rw [h l hl]; rfl

/-- Membership of the pair list. -/
theorem collectPairs_mem {dec : Lit → Option Str} {lits : List Lit} {o n : Str}
    (h : (o, n) ∈ collectPairs dec lits) :
    ∃ l ∈ lits, dec l = some n ∧ o = l.text := by
  unfold collectPairs at h
  rcases List.mem_filterMap.mp h with ⟨l, hl, hfm⟩
  cases hd : dec l with
  | none => rw [hd] at hfm; exact absurd hfm (by simp)
  | some a =>
    rw [hd] at hfm
    have hfm' : some (l.text, a) = some (o, n) := hfm
    have h2 := Option.some.inj hfm'
    have ha : a = n := congrArg Prod.snd h2
    have ho : l.text = o := congrArg Prod.fst h2
    exact ⟨l, hl, by rw [hd, ha], ho.symm⟩

/-- With pairwise-distinct start offsets the keyed edit map degenerates
to one appended edit per fired literal, in document order. -/
theorem collectEdits_eq_editsOf {dec : Lit → Option Str} {lits : List Lit}
    (hnd : List.Pairwise (fun a b => a.start ≠ b.start) lits) :
    collectEdits dec lits = editsOf dec lits := by
  suffices haux : ∀ (ls : List Lit) (acc : List Edit),
      List.Pairwise (fun a b => a.start ≠ b.start) ls →
      (∀ e ∈ acc, ∀ l ∈ ls, e.start ≠ l.start) →
      ls.foldl (fun m l => match dec l with
        | some a => mapSet m (editFor l a)
        | none => m) acc = acc ++ editsOf dec ls by
    have := haux lits [] hnd (by intro e he; exact absurd he (List.not_mem_nil e))
    simpa [collectEdits] using this
  intro ls
  induction ls with
  | nil => intro acc _ _; simp [editsOf]
  | cons l rest ih =>
    intro acc hpw hdis
    simp only [List.foldl_cons]
    rcases List.pairwise_cons.mp hpw with ⟨hl, hrest⟩
    cases hd : dec l with
    | none =>
      dsimp only
      rw [ih acc hrest (fun e he l' hl' => hdis e he l' (List.mem_cons_of_mem l hl'))]
      simp [editsOf, hd]
    | some a =>
      dsimp only
      have hset : mapSet acc (editFor l a) = acc ++ [editFor l a] := by
        unfold mapSet
        rw [if_neg]
        simp only [List.any_eq_true, not_exists, not_and]
        intro x hx
        simp only [decide_eq_true_eq]
        exact hdis x hx l (List.mem_cons_self l rest)
      rw [hset, ih (acc ++ [editFor l a]) hrest ?_]
      · simp [editsOf, hd]
      · intro e he l' hl'
        rcases List.mem_append.mp he with h' | h'
        · exact hdis e h' l' (List.mem_cons_of_mem l hl')
        · rw [List.mem_singleton.mp h']
          exact hl l' hl'

/-! ## Lemmas on the parse invariant -/

/-- Separated literals are pairwise separated (the separation relation
composes through the chain). -/
theorem litsSeparated_pairwise {lits : List Lit} (h : litsSeparated lits = true) :
    List.Pairwise (fun a b => litStop a + 2 ≤ b.start) lits := by
  induction lits with
  | nil => exact List.Pairwise.nil
  | cons a rest ih =>
    cases rest with
    | nil => simp
    | cons b rest' =>
      unfold litsSeparated at h
      have h' : (litStop a + 2 ≤ b.start) ∧ litsSeparated (b :: rest') = true := by
        simpa using h
      have hab' : litStop a + 2 ≤ b.start := h'.1
      have hpw := ih h'.2
      refine List.pairwise_cons.mpr ⟨?_, hpw⟩
      intro x hx
      rcases List.mem_cons.mp hx with hxb | hx'
      · exact hxb ▸ hab'
      · have hbx := (List.pairwise_cons.mp hpw).1 x hx'
        have : b.start ≤ litStop b := Nat.le_add_right _ _
        omega

/-- Separated literals have pairwise-distinct start offsets. -/
theorem litsSeparated_start_ne {lits : List Lit} (h : litsSeparated lits = true) :
    List.Pairwise (fun a b => a.start ≠ b.start) lits := by
  refine (litsSeparated_pairwise h).imp ?_
  intro a b hab
  have : a.start ≤ litStop a := Nat.le_add_right _ _
  omega

/-! ## Lemmas on edit application -/

/-- Ranges of later edits do not disturb the text before them. -/
theorem take_replaceEachRange {es : List Edit} {t : Str} {b : Nat}
    (hb : ∀ e ∈ es, b ≤ e.start) (hbt : b ≤ t.length) :
    (replaceEachRange es t).take b = t.take b := by
  induction es with
  | nil => rfl
  | cons e es _ =>
    have hbe : b ≤ e.start := hb e (List.mem_cons_self e es)
    show ((t.take e.start ++ e.text) ++ (replaceEachRange es t).drop e.stop).take b
      = t.take b
    rw [List.append_assoc, List.take_append_of_le_length, List.take_take]
    · congr 1
      exact min_eq_left hbe
    · rw [List.length_take]
      exact le_min hbe hbt

/-- Inserting an edit below every element of a descending list appends
it at the end. -/
theorem orderedInsert_of_forall_not {e : Edit} {l : List Edit}
    (h : ∀ x ∈ l, ¬ editDescLe e x) :
    List.orderedInsert editDescLe e l = l ++ [e] := by
  induction l with
  | nil => rfl
  | cons x xs ih =>
    have hx : ¬ editDescLe e x := h x (List.mem_cons_self x xs)
    simp only [List.orderedInsert, if_neg hx]
    rw [ih (fun y hy => h y (List.mem_cons_of_mem x hy))]
    rfl

/-- Sorting a strictly ascending edit list by descending start reverses
it. -/
theorem insertionSort_desc_of_ascending {edits : List Edit}
    (h : List.Pairwise (fun a b => a.start < b.start) edits) :
    List.insertionSort editDescLe edits = edits.reverse := by
  induction edits with
  | nil => rfl
  | cons e es ih =>
    rcases List.pairwise_cons.mp h with ⟨he, hes⟩
    simp only [List.insertionSort]
    rw [ih hes, orderedInsert_of_forall_not, List.reverse_cons]
    intro x hx hle
    rw [List.mem_reverse] at hx
    have := he x hx
    unfold editDescLe at hle
    omega

/-- Folding the splices from the right realises the ascending
replacement semantics. -/
theorem foldr_splice_eq {es : List Edit} {t : Str}
    (hpw : List.Pairwise (fun a b => a.stop ≤ b.start) es)
    (hwf : ∀ e ∈ es, e.start ≤ e.stop ∧ e.stop ≤ t.length) :
    List.foldr (fun e acc => spliceOne acc e) t es = replaceEachRange es t := by
  induction es with
  | nil => rfl
  | cons e es ih =>
    rcases List.pairwise_cons.mp hpw with ⟨he, hes⟩
    have h1 := hwf e (List.mem_cons_self e es)
    simp only [List.foldr_cons]
    rw [ih hes (fun x hx => hwf x (List.mem_cons_of_mem e hx))]
    show (replaceEachRange es t).take e.start ++ e.text
        ++ (replaceEachRange es t).drop e.stop
      = t.take e.start ++ e.text ++ (replaceEachRange es t).drop e.stop
    rw [take_replaceEachRange (fun x hx => le_trans h1.1 (he x hx)) (le_trans h1.1 h1.2)]

/-- Applying the edits sorted by descending start equals replacing each
recorded range in the original text, for pairwise-disjoint in-bounds
edits. -/
theorem applyEdits_eq_replaceEachRange {edits : List Edit} {t : Str}
    (hpw : List.Pairwise (fun a b => a.stop < b.start) edits)
    (hwf : ∀ e ∈ edits, e.start ≤ e.stop ∧ e.stop ≤ t.length) :
    applyEdits t edits = replaceEachRange edits t := by
  have hasc : List.Pairwise (fun a b => a.start < b.start) edits := by
    refine List.Pairwise.imp_of_mem ?_ hpw
    intro a b ha _ hab
    have := (hwf a ha).1
    omega
  have hle : List.Pairwise (fun a b => a.stop ≤ b.start) edits :=
    hpw.imp (fun h => Nat.le_of_lt h)
  unfold applyEdits
  rw [insertionSort_desc_of_ascending hasc, List.foldl_reverse]
  exact foldr_splice_eq hle hwf

/-- Disjoint spans lying above lo fit between lo and the end of the
text. -/
theorem spanSum_le {es : List Edit} {L lo : Nat}
    (hpw : List.Pairwise (fun a b => a.stop ≤ b.start) es)
    (hwf : ∀ e ∈ es, e.start ≤ e.stop ∧ e.stop ≤ L)
    (hlo : lo ≤ L) (hstart : ∀ e ∈ es, lo ≤ e.start) :
    lo + spanSum es ≤ L := by
  induction es generalizing lo with
  | nil => simpa [spanSum]
  | cons e es ih =>
    have h1 := hwf e (List.mem_cons_self e es)
    have h2 := hstart e (List.mem_cons_self e es)
    rcases List.pairwise_cons.mp hpw with ⟨he, hes⟩
    have hrec := ih hes (fun x hx => hwf x (List.mem_cons_of_mem e hx)) h1.2 he
    unfold spanSum at hrec ⊢
    simp only [List.map_cons, List.sum_cons]
    omega

/-- Length accounting of the replacement semantics. -/
theorem length_replaceEachRange {es : List Edit} {t : Str}
    (hpw : List.Pairwise (fun a b => a.stop ≤ b.start) es)
    (hwf : ∀ e ∈ es, e.start ≤ e.stop ∧ e.stop ≤ t.length) :
    (replaceEachRange es t).length + spanSum es = t.length + replSum es := by
  induction es with
  | nil => simp [replaceEachRange, spanSum, replSum]
  | cons e es ih =>
    rcases List.pairwise_cons.mp hpw with ⟨he, hes⟩
    have h1 := hwf e (List.mem_cons_self e es)
    have ih' := ih hes (fun x hx => hwf x (List.mem_cons_of_mem e hx))
    have hsp : e.stop + spanSum es ≤ t.length :=
      spanSum_le hes (fun x hx => hwf x (List.mem_cons_of_mem e hx)) h1.2 he
    show ((t.take e.start ++ e.text) ++ (replaceEachRange es t).drop e.stop).length + _ = _
    unfold spanSum at hsp
    unfold spanSum replSum at ih' ⊢
    simp only [List.length_append, List.length_take, List.length_drop, List.map_cons,
      List.sum_cons]
    omega

/-! ## Bridging the collected edits with the parse invariant -/

/-- Under the parse invariant the collected edits are pairwise disjoint,
in strictly ascending order, and lie within the text. -/
theorem edits_wf_of_parseOK {dec : Lit → Option Str} {sourceText : Str} {lits : List Lit}
    (hp : ParseOK sourceText lits) :
    List.Pairwise (fun a b => a.stop < b.start) (collectEdits dec lits) ∧
    ∀ e ∈ collectEdits dec lits, e.start ≤ e.stop ∧ e.stop ≤ sourceText.length := by
  rcases hp with ⟨hlit, hsep⟩
  constructor
  · rw [collectEdits_eq_editsOf (litsSeparated_start_ne hsep)]
    unfold editsOf
    rw [List.pairwise_filterMap]
    refine (litsSeparated_pairwise hsep).imp ?_
    intro a b hab x hx y hy
    cases hda : dec a with
    | none => rw [hda] at hx; exact absurd hx (by simp)
    | some va =>
      cases hdb : dec b with
      | none => rw [hdb] at hy; exact absurd hy (by simp)
      | some vb =>
        rw [hda] at hx
        rw [hdb] at hy
        have hx' : editFor a va = x := by simpa using hx
        have hy' : editFor b vb = y := by simpa using hy
        rw [← hx', ← hy']
        show litStop a < b.start
        omega
  · intro e he
    rcases collectEdits_mem he with ⟨l, hl, a, _, hea⟩
    have hok := hlit l hl
    subst hea
    refine ⟨Nat.le_add_right _ _, ?_⟩
    show litStop l ≤ sourceText.length
    have := hok.2.1
    omega

/-- The pairs returned by updateImportsInFile are the collected ones. -/
theorem updateImports_pairs (env : Env) (sourceText : Str) (lits : List Lit) :
    (updateImportsInFile env sourceText lits).updatedPathPairs
      = collectPairs (litDecision env) lits := by
  unfold updateImportsInFile
  dsimp only
  split <;> rfl

/-- The changed flag of updateImportsInFile is set exactly when an edit
was collected. -/
theorem updateImports_changed (env : Env) (sourceText : Str) (lits : List Lit) :
    (updateImportsInFile env sourceText lits).changed = true
      ↔ collectEdits (litDecision env) lits ≠ [] := by
  unfold updateImportsInFile
  by_cases h : (collectEdits (litDecision env) lits).isEmpty = true
  · rw [if_pos h]
    simp [List.isEmpty_iff.mp h]
  · rw [if_neg h]
    simpa using fun he => h (by simp [he])

/-- The text returned by updateImportsInFile, expressed through the
replacement semantics of its collected edits. -/
theorem updateImports_text {env : Env} {sourceText : Str} {lits : List Lit}
    (hp : ParseOK sourceText lits) :
    (updateImportsInFile env sourceText lits).text
      = replaceEachRange (collectEdits (litDecision env) lits) sourceText := by
  rcases @edits_wf_of_parseOK (litDecision env) _ _ hp with ⟨hpw, hwf⟩
  unfold updateImportsInFile
  by_cases h : (collectEdits (litDecision env) lits).isEmpty = true
  · rw [if_pos h]
    rw [List.isEmpty_iff.mp h]
    rfl
  · rw [if_neg h]
    exact applyEdits_eq_replaceEachRange hpw hwf

/-- A decision of the reference pass: when the visitor queues a
replacement, the literal is not a static module specifier, the map
yields exactly that replacement under the node's cooked text, and the
replacement is nonempty and differs from that text. -/
theorem refsDecision_some {replacementMap : List (Str × Str)} {l : Lit} {a : Str}
    (h : refsDecision replacementMap l = some a) :
    isImportExportModuleSpecifier l = false ∧
    mapGet replacementMap l.text = some a ∧ a ≠ [] ∧ a ≠ l.text := by
  unfold refsDecision at h
  by_cases hs : isImportExportModuleSpecifier l = true
  · rw [if_pos hs] at h; exact absurd h (by simp)
  · rw [if_neg hs] at h
    cases hg : mapGet replacementMap l.text with
    | none => rw [hg] at h; exact absurd h (by simp)
    | some v =>
      rw [hg] at h
      dsimp only at h
      by_cases hc : v ≠ [] ∧ v ≠ l.text
      · rw [if_pos hc] at h
        cases h
        exact ⟨Bool.not_eq_true _ ▸ hs, rfl, hc⟩
      · rw [if_neg hc] at h
        exact absurd h (by simp)

/-- An empty replacement map fires on no literal. -/
theorem refsDecision_nil (l : Lit) : refsDecision [] l = none := by
  unfold refsDecision
  split
  · rfl
  · rfl

/-- The text returned by updatePathReferencesInFile, expressed through
the replacement semantics of its collected edits. -/
theorem updatePathReferences_text {replacementMap : List (Str × Str)} {sourceText : Str}
    {lits : List Lit} (hp : ParseOK sourceText lits) :
    (updatePathReferencesInFile replacementMap sourceText lits).text
      = replaceEachRange (collectEdits (refsDecision replacementMap) lits) sourceText := by
  rcases @edits_wf_of_parseOK (refsDecision replacementMap) _ _ hp with ⟨hpw, hwf⟩
  unfold updatePathReferencesInFile
  by_cases hm : replacementMap.isEmpty = true
  · rw [if_pos hm]
    have : collectEdits (refsDecision replacementMap) lits = [] := by
      refine collectEdits_eq_nil_iff.mpr (fun l _ => ?_)
      rw [List.isEmpty_iff.mp hm]
      exact refsDecision_nil l
    rw [this]
    rfl
  · rw [if_neg hm]
    by_cases h : (collectEdits (refsDecision replacementMap) lits).isEmpty = true
    · rw [if_pos h]
      rw [List.isEmpty_iff.mp h]
      rfl
    · rw [if_neg h]
      exact applyEdits_eq_replaceEachRange hpw hwf

/-! ## Characterisation of the stable replacement map -/

/-- buildStableReplacementMap keeps exactly the singleton entries and
lists every other key as a conflict, in entry order. -/
theorem buildStable_eq (m : List (Str × List Str)) :
    buildStableReplacementMap m =
      ⟨m.filterMap (fun kv => match kv.2 with
          | [v] => some (kv.1, v)
          | _ => none),
        m.filterMap (fun kv => match kv.2 with
          | [_] => none
          | _ => some kv.1)⟩ := by
  suffices haux : ∀ (l : List (Str × List Str)) (acc : StableResult),
      l.foldl (fun acc kv => match kv.2 with
        | [v] => { acc with stableMap := acc.stableMap ++ [(kv.1, v)] }
        | _ => { acc with conflicts := acc.conflicts ++ [kv.1] }) acc =
      ⟨acc.stableMap ++ l.filterMap (fun kv => match kv.2 with
          | [v] => some (kv.1, v)
          | _ => none),
        acc.conflicts ++ l.filterMap (fun kv => match kv.2 with
          | [_] => none
          | _ => some kv.1)⟩ by
    have := haux m ⟨[], []⟩
    simpa [buildStableReplacementMap] using this
  intro l
  induction l with
  | nil => intro acc; simp
  | cons kv rest ih =>
    intro acc
    simp only [List.foldl_cons, List.filterMap_cons]
    rcases kv with ⟨k, vs⟩
    match vs with
    | [v] => rw [ih]; simp
    | [] => rw [ih]; simp
    | v :: w :: vrest => rw [ih]; simp

/-! ## Lemmas on the path model used for the wildcard round trip -/

theorem splitOnChar_ne_nil (c : Char) (p : Str) : splitOnChar c p ≠ [] := by
  cases p with
  | nil => simp [splitOnChar]
  | cons x xs =>
    show (match splitOnChar c xs with
      | [] => [[]]
      | h :: t => if x = c then [] :: h :: t else (x :: h) :: t) ≠ []
    cases h : splitOnChar c xs with
    | nil => simp
    | cons h' t => by_cases hx : x = c <;> simp [hx]

theorem splitOnChar_sep (c : Char) (xs : Str) :
    splitOnChar c (c :: xs) = [] :: splitOnChar c xs := by
  show (match splitOnChar c xs with
    | [] => [[]]
    | h :: t => if c = c then [] :: h :: t else (c :: h) :: t) = [] :: splitOnChar c xs
  cases h : splitOnChar c xs with
  | nil => exact absurd h (splitOnChar_ne_nil c xs)
  | cons h' t => simp

theorem splitOnChar_seg {c : Char} {s : Str} (hs : c ∉ s) (rest : Str) :
    splitOnChar c (s ++ c :: rest) = s :: splitOnChar c rest := by
  induction s with
  | nil => simpa using splitOnChar_sep c rest
  | cons x xs ih =>
    have hx : x ≠ c := fun h => hs (h ▸ List.mem_cons_self x xs)
    have hxs : c ∉ xs := fun h => hs (List.mem_cons_of_mem x h)
    show (match splitOnChar c (xs ++ c :: rest) with
      | [] => [[]]
      | h :: t => if x = c then [] :: h :: t else (x :: h) :: t)
      = (x :: xs) :: splitOnChar c rest
    rw [ih hxs]
    simp [hx]

theorem intercalate_cons2 (s a b : Str) (t : List Str) :
    List.intercalate s (a :: b :: t) = a ++ s ++ List.intercalate s (b :: t) := by
  simp [List.intercalate, List.intersperse]

theorem intercalate_one (s a : Str) : List.intercalate s [a] = a := by
  simp [List.intercalate]

/-- Splitting an interspersed clean segment list recovers it. -/
theorem splitOnChar_intercalate {c : Char} {segs : List Str}
    (hclean : ∀ s ∈ segs, c ∉ s) (hne : segs ≠ []) (rest : Str) :
    splitOnChar c (List.intercalate [c] segs ++ c :: rest)
      = segs ++ splitOnChar c rest := by
  induction segs with
  | nil => exact absurd rfl hne
  | cons a segs ih =>
    cases segs with
    | nil =>
      rw [intercalate_one]
      exact splitOnChar_seg (hclean a (List.mem_cons_self a [])) rest
    | cons b t =>
      have ha : c ∉ a := hclean a (List.mem_cons_self a (b :: t))
      have hL : List.intercalate [c] (a :: b :: t) ++ c :: rest
          = a ++ c :: (List.intercalate [c] (b :: t) ++ c :: rest) := by
        rw [intercalate_cons2]
        simp
      rw [hL, splitOnChar_seg ha,
        ih (fun s hs => hclean s (List.mem_cons_of_mem a hs)) (by simp)]
      rfl

/-- Appending a last segment to an interspersed list. -/
theorem intercalate_append_single (s : Str) {segs : List Str} (hne : segs ≠ []) (x : Str) :
    List.intercalate s (segs ++ [x]) = List.intercalate s segs ++ s ++ x := by
  induction segs with
  | nil => exact absurd rfl hne
  | cons a segs ih =>
    cases segs with
    | nil =>
      show List.intercalate s [a, x] = List.intercalate s [a] ++ s ++ x
      rw [intercalate_cons2 s a x [], intercalate_one, intercalate_one]
    | cons b t =>
      have hL : List.intercalate s ((a :: b :: t) ++ [x])
          = a ++ s ++ List.intercalate s ((b :: t) ++ [x]) :=
        intercalate_cons2 s a b (t ++ [x])
      rw [hL, ih (by simp), intercalate_cons2]
      simp [List.append_assoc]

theorem collapse_foldl_clean :
    ∀ (l : List Str) (acc : List Str), (∀ s ∈ l, CleanSeg s) →
      l.foldl (fun acc seg =>
        if seg = [] ∨ seg = str "." then acc
        else if seg = str ".." then acc.dropLast
        else acc ++ [seg]) acc = acc ++ l := by
  intro l
  induction l with
  | nil => intro acc _; simp
  | cons s rest ih =>
    intro acc hcl
    rcases hcl s (List.mem_cons_self s rest) with ⟨h1, h2, h3⟩
    simp only [List.foldl_cons, if_neg (by simp [h1, h2] : ¬(s = [] ∨ s = str ".")),
      if_neg h3]
    rw [ih (acc ++ [s]) (fun x hx => hcl x (List.mem_cons_of_mem s hx))]
    simp

theorem collapse_clean {segs : List Str} (hclean : ∀ s ∈ segs, CleanSeg s) :
    collapse segs = segs := by
  simpa [collapse] using collapse_foldl_clean segs [] hclean

theorem str_slash : str "/" = [('/' : Char)] := rfl

theorem isPrefixOf_append (a b : Str) : List.isPrefixOf a (a ++ b) = true := by
  induction a with
  | nil => simp [List.isPrefixOf]
  | cons x xs ih => simp [List.isPrefixOf, ih]

/-- Resolving the relative prefix "src/" (the physical prefix of the
pattern src/*) against a normalised absolute base appends the src
segment; the trailing slash is dropped by the resolve normalisation. -/
theorem pathResolve_srcSlash {root : Str} {segs : List Str}
    (hne : segs ≠ [])
    (hclean : ∀ s ∈ segs, CleanSeg s ∧ '/' ∉ s)
    (hroot : root = str "/" ++ List.intercalate (str "/") segs) :
    pathResolve root (str "src/") = root ++ str "/src" := by
  have habs : isAbsolute (str "src/") = false := by decide
  unfold pathResolve
  rw [habs]
  simp only [Bool.false_eq_true, if_false]
  unfold resolveAbs
  have hsegs : root ++ str "/" ++ str "src/"
      = '/' :: (List.intercalate [('/' : Char)] segs ++ '/' :: str "src/") := by
    rw [hroot, str_slash]
    simp [List.append_assoc]
  rw [hsegs, splitOnChar_sep, splitOnChar_intercalate (fun s hs => (hclean s hs).2) hne]
  have hsplit_src : splitOnChar '/' (str "src/") = [str "src", []] := by decide
  rw [hsplit_src]
  have hclean' : ∀ s ∈ segs ++ [str "src"], CleanSeg s := by
    intro s hs
    rcases List.mem_append.mp hs with h | h
    · exact (hclean s h).1
    · rw [List.mem_singleton.mp h]
      exact ⟨by decide, by decide, by decide⟩
  have hcoll : collapse (([] : Str) :: (segs ++ [str "src", []])) = segs ++ [str "src"] := by
    unfold collapse
    rw [List.foldl_cons]
    have hsplit2 : segs ++ [str "src", ([] : Str)] = (segs ++ [str "src"]) ++ [[]] := by
      simp
    rw [if_pos (Or.inl rfl), hsplit2, List.foldl_append,
      collapse_foldl_clean (segs ++ [str "src"]) [] hclean']
    simp
  rw [hcoll, str_slash, intercalate_append_single [('/' : Char)] hne (str "src")]
  rw [hroot, str_slash]
  have hsrc : str "/src" = '/' :: str "src" := by decide
  rw [hsrc]
  simp [List.append_assoc]

/-! ## Claim theorems -/

/-- C1.  For every set of matchers and every target, in both
relative-path mode (buildAliasForTarget) and bare-specifier mode
(resolveBareAlias), when at least one candidate alias exists the
resolver returns a candidate of minimal character length, and among
candidates of equal minimal length the lexicographically earliest
one. -/
theorem shortest_alias_selection :
    (∀ (targetAbs : Str) (matchers : List AliasMatcher) (keepExt : Bool) (a : Str),
      buildAliasForTarget targetAbs matchers keepExt = some a →
      a ∈ targetCandidates targetAbs matchers keepExt ∧
        ∀ b ∈ targetCandidates targetAbs matchers keepExt,
          a.length < b.length ∨ (a.length = b.length ∧ lexLe a b = true)) ∧
    (∀ (spec : Str) (matchers : List AliasMatcher) (baseUrl rootDir : Str) (keepExt : Bool)
      (fsx : FileSystem) (a : Str),
      resolveBareAlias spec matchers baseUrl rootDir keepExt fsx = some a →
      a ∈ bareCandidates spec matchers baseUrl rootDir keepExt fsx ∧
        ∀ b ∈ bareCandidates spec matchers baseUrl rootDir keepExt fsx,
          a.length < b.length ∨ (a.length = b.length ∧ lexLe a b = true)) := by
  constructor
  · intro targetAbs matchers keepExt a h
    exact head_sortCandidates h
  · intro spec matchers baseUrl rootDir keepExt fsx a h
    exact head_sortCandidates h

/-- C1 witness: in the overlapping configuration the resolver picks the
shorter of the two candidates "@long/x" and "#x". -/
theorem shortest_alias_selection_witness :
    buildAliasForTarget (str "/r/src/x") overlapMatchers true = some (str "#x") ∧
    str "#x" ∈ targetCandidates (str "/r/src/x") overlapMatchers true ∧
    ∀ b ∈ targetCandidates (str "/r/src/x") overlapMatchers true,
      (str "#x").length < b.length ∨
        ((str "#x").length = b.length ∧ lexLe (str "#x") b = true) := by
  have h : buildAliasForTarget (str "/r/src/x") overlapMatchers true = some (str "#x") := by
    decide
  have hc := shortest_alias_selection.1 (str "/r/src/x") overlapMatchers true (str "#x") h
  exact ⟨h, hc.1, hc.2⟩

/-- C2.  In relative-path mode an edit and rename pair are recorded only
when the computed alias is strictly shorter in character length than the
original specifier; a relative specifier is never replaced by an alias
of equal or greater length. -/
theorem no_lengthening :
    (∀ (env : Env) (spec a : Str), isRelative spec = true →
      rewriteDecision env spec = some a → a.length < spec.length) ∧
    (∀ (env : Env) (sourceText : Str) (lits : List Lit) (o n : Str),
      (o, n) ∈ (updateImportsInFile env sourceText lits).updatedPathPairs →
      isRelative o = true → n.length < o.length) := by
  have h1 : ∀ (env : Env) (spec a : Str), isRelative spec = true →
      rewriteDecision env spec = some a → a.length < spec.length := by
    intro env spec a hrel h
    exact (rewriteDecision_relative hrel h).2.1
  refine ⟨h1, ?_⟩
  intro env sourceText lits o n hmem hrel
  rw [updateImports_pairs] at hmem
  rcases collectPairs_mem hmem with ⟨l, _, hdec, hot⟩
  unfold litDecision at hdec
  by_cases hs : isModuleSpecifierSite l = true
  · rw [if_pos hs] at hdec
    subst hot
    exact h1 env l.text n hrel hdec
  · rw [if_neg hs] at hdec
    exact absurd hdec (by simp)

/-- C2 witness: the pair ("./aa/x", "#x") recorded in the two-import
file shortens its relative specifier. -/
theorem no_lengthening_witness :
    (str "./aa/x", str "#x")
        ∈ (updateImportsInFile hashEnv hashText [hashLitA, hashLitB]).updatedPathPairs ∧
    isRelative (str "./aa/x") = true ∧
    (str "#x").length < (str "./aa/x").length := by
  have hmem : (str "./aa/x", str "#x")
      ∈ (updateImportsInFile hashEnv hashText [hashLitA, hashLitB]).updatedPathPairs := by
    decide
  exact ⟨hmem, by decide,
    no_lengthening.2 hashEnv hashText [hashLitA, hashLitB] _ _ hmem (by decide)⟩

/-- C3 counterexample.  With the chained mapping { "b": ["a"],
"c": ["b"] } (files a.ts and b.ts existing), the file import "a"; is
rewritten to import "b"; on the first run, and running the function
updateImportsInFile again on that output rewrites it once more, to
the text import "c"; so the second run has changed = true and a nonempty
rename-pair list, refuting idempotence as claimed. -/
theorem sourceEditor_not_idempotent :
    ParseOK chainText [chainLit] ∧
    (updateImportsInFile chainEnv chainText [chainLit]).changed = true ∧
    (updateImportsInFile chainEnv chainText [chainLit]).text = str "import \"b\";" ∧
    ParseOK (updateImportsInFile chainEnv chainText [chainLit]).text
      (rewrittenLits chainEnv [chainLit] 0 0) ∧
    (updateImportsInFile chainEnv (updateImportsInFile chainEnv chainText [chainLit]).text
      (rewrittenLits chainEnv [chainLit] 0 0)).changed = true ∧
    (updateImportsInFile chainEnv (updateImportsInFile chainEnv chainText [chainLit]).text
      (rewrittenLits chainEnv [chainLit] 0 0)).updatedPathPairs = [(str "b", str "c")] := by
  decide

/-- C3 amended: re-running updateImportsInFile on its own output yields
changed = false, zero edits and an empty rename-pair list provided no
literal of the output is itself rewritable (alias chains as in the
counterexample, or aliases that start with a dot or resolve again in
bare mode, re-fire and are rewritten again). -/
theorem sourceEditor_idempotent_when_aliases_stable
    (env : Env) (lits : List Lit) (outText : Str)
    (h : ∀ l ∈ rewrittenLits env lits 0 0, litDecision env l = none) :
    updateImportsInFile env outText (rewrittenLits env lits 0 0)
      = ⟨false, outText, []⟩ := by
  have hedits : collectEdits (litDecision env) (rewrittenLits env lits 0 0) = [] :=
    collectEdits_eq_nil_iff.mpr h
  have hpairs : collectPairs (litDecision env) (rewrittenLits env lits 0 0) = [] :=
    collectPairs_eq_nil_iff.mpr h
  unfold updateImportsInFile
  rw [hedits, hpairs]
  rfl

/-- C3 amended witness: under the single mapping { "#*": ["aa/*"] } the
rewritten literals #x and #y are not rewritable again, so the second run
returns its input unchanged. -/
theorem sourceEditor_idempotent_witness :
    (∀ l ∈ rewrittenLits hashEnv [hashLitA, hashLitB] 0 0, litDecision hashEnv l = none) ∧
    updateImportsInFile hashEnv (str "import \"#x\";import \"#y\";")
        (rewrittenLits hashEnv [hashLitA, hashLitB] 0 0)
      = ⟨false, str "import \"#x\";import \"#y\";", []⟩ := by
  have h : ∀ l ∈ rewrittenLits hashEnv [hashLitA, hashLitB] 0 0,
      litDecision hashEnv l = none := by decide
  exact ⟨h, sourceEditor_idempotent_when_aliases_stable hashEnv [hashLitA, hashLitB]
    (str "import \"#x\";import \"#y\";") h⟩

/-- C4 counterexample.  parseStarPattern never rejects a pattern: on
"src/*mid*" (two wildcards) it returns prefix "src/" and suffix "mid*",
and buildAliasMatchers builds a matcher from the entry
{ "@x/*": ["src/*mid*"] } instead of skipping it; the null-check in
buildAliasMatchers never fires. -/
theorem multi_wildcard_not_skipped :
    parseStarPattern (str "src/*mid*") = ⟨str "src/", str "mid*", true⟩ ∧
    parseStarPattern (str "a*b*c") = ⟨str "a", str "b*c", true⟩ ∧
    buildAliasMatchers [(str "@x/*", [str "src/*mid*"])] (str "/r")
      = some ⟨str "/r", [⟨str "@x/", [], str "/r/src", str "mid*", true⟩]⟩ := by
  decide

/-- C4 amended: no pattern is ever skipped: every alias-mapping entry
contributes one matcher per target pattern, a pattern with several
wildcards being decomposed at its first star with the remaining stars
kept literally in the suffix. -/
theorem multi_wildcard_amended :
    (∀ (paths : List (Str × List Str)) (baseUrl : Str),
      (buildMatcherList baseUrl paths).length
        = (paths.map (fun kv => kv.2.length)).sum) ∧
    (∀ (pattern : Str) (i : Nat), pattern.findIdx? (· = '*') = some i →
      parseStarPattern pattern = ⟨pattern.take i, pattern.drop (i + 1), true⟩) := by
  constructor
  · intro paths baseUrl
    unfold buildMatcherList
    rw [List.length_flatten, List.map_map]
    congr 1
    refine List.map_congr_left ?_
    intro kv _
    simp
  · intro pattern i h
    unfold parseStarPattern
    rw [h]

/-- C4 amended witness: an entry with two target patterns, one of them
carrying two wildcards, contributes two matchers; the multi-wildcard
pattern decomposes at its first star. -/
theorem multi_wildcard_amended_witness :
    (buildMatcherList (str "/r") [(str "@x/*", [str "src/*mid*", str "other"])]).length
      = ([(str "@x/*", [str "src/*mid*", str "other"])].map
          (fun kv => kv.2.length)).sum ∧
    (str "a*b*c").findIdx? (· = '*') = some 1 ∧
    parseStarPattern (str "a*b*c") = ⟨(str "a*b*c").take 1, (str "a*b*c").drop 2, true⟩ := by
  have h : (str "a*b*c").findIdx? (· = '*') = some 1 := by decide
  exact ⟨multi_wildcard_amended.1 _ _, h, multi_wildcard_amended.2 _ 1 h⟩

/-- Keys of a duplicate-free association list determine their values. -/
theorem nodup_keys_eq {m : List (Str × List Str)} (h : (m.map Prod.fst).Nodup)
    {k : Str} {a b : List Str} (ha : (k, a) ∈ m) (hb : (k, b) ∈ m) : a = b := by
  induction m with
  | nil => exact absurd ha (List.not_mem_nil _)
  | cons kv rest ih =>
    rw [List.map_cons, List.nodup_cons] at h
    rcases List.mem_cons.mp ha with ha' | ha'
    · rcases List.mem_cons.mp hb with hb' | hb'
      · rw [← ha'] at hb'
        exact (congrArg Prod.snd hb'.symm : a = b)
      · exfalso
        apply h.1
        rw [← ha']
        exact List.mem_map.mpr ⟨(k, b), hb', rfl⟩
    · rcases List.mem_cons.mp hb with hb' | hb'
      · exfalso
        apply h.1
        rw [← hb']
        exact List.mem_map.mpr ⟨(k, a), ha', rfl⟩
      · exact ih h.2 ha' hb'

/-- C5.  buildStableReplacementMap keeps exactly the keys whose value
set has one member, records every key with two or more distinct targets
as a conflict, and the reference-propagation pass never edits a literal
whose text is such an ambiguous key. -/
theorem ambiguity_exclusion (m : List (Str × List Str))
    (hkeys : (m.map Prod.fst).Nodup) :
    (∀ k v, (k, v) ∈ (buildStableReplacementMap m).stableMap ↔ (k, [v]) ∈ m) ∧
    (∀ k vs, (k, vs) ∈ m → 2 ≤ vs.length →
      k ∈ (buildStableReplacementMap m).conflicts) ∧
    (∀ k vs, (k, vs) ∈ m → 2 ≤ vs.length →
      ∀ (lits : List Lit) (l : Lit), l ∈ lits → l.text = k →
      List.Pairwise (fun a b => a.start ≠ b.start) lits →
      ∀ e ∈ collectEdits (refsDecision (buildStableReplacementMap m).stableMap) lits,
        e.start ≠ l.start) := by
  have hstable : ∀ k v, (k, v) ∈ (buildStableReplacementMap m).stableMap ↔ (k, [v]) ∈ m := by
    intro k v
    rw [buildStable_eq]
    constructor
    · intro h
      rcases List.mem_filterMap.mp h with ⟨⟨k', vs⟩, hkv, hf⟩
      match vs with
      | [] => exact absurd hf (by simp)
      | [v'] =>
        have h2 : some (k', v') = some (k, v) := hf
        have h3 := Option.some.inj h2
        have hk : k' = k := congrArg Prod.fst h3
        have hv : v' = v := congrArg Prod.snd h3
        rw [← hk, ← hv]
        exact hkv
      | v' :: w :: t => exact absurd hf (by simp)
    · intro h
      exact List.mem_filterMap.mpr ⟨(k, [v]), h, rfl⟩
  refine ⟨hstable, ?_, ?_⟩
  · intro k vs hkv hlen
    rw [buildStable_eq]
    refine List.mem_filterMap.mpr ⟨(k, vs), hkv, ?_⟩
    match vs, hlen with
    | v :: w :: t, _ => rfl
  · intro k vs hkv hlen lits l hl hlt hpw e he
    have hnone : mapGet (buildStableReplacementMap m).stableMap k = none := by
      unfold mapGet
      have hfind : (buildStableReplacementMap m).stableMap.find? (fun kv => kv.1 = k)
          = none := by
        rw [List.find?_eq_none]
        rintro ⟨k', v'⟩ hmem hk
        have hk' : k' = k := by simpa using hk
        subst hk'
        have h2 : (k', [v']) ∈ m := (hstable k' v').mp hmem
        have h3 : vs = [v'] := nodup_keys_eq hkeys hkv h2
        rw [h3] at hlen
        simp at hlen
      rw [hfind]
      rfl
    rcases collectEdits_mem he with ⟨l', hl', a, hdec, hea⟩
    rcases refsDecision_some hdec with ⟨_, hget, _, _⟩
    have hne2 : l' ≠ l := by
      intro hll
      rw [hll, hlt, hnone] at hget
      exact absurd hget (by simp)
    have hstart : l'.start ≠ l.start :=
      List.Pairwise.forall (fun _ _ hab => Ne.symm hab) hpw hl' hl hne2
    rw [hea]
    exact hstart

/-- C5 witness: with "x" renamed to both "@/a" and "@/b" and "y"
renamed to "@/y" only, the key "x" is a conflict, the propagation pass
records no edit for a literal with text "x", and a file holding only
that literal is left unchanged. -/
theorem ambiguity_exclusion_witness :
    (ambigMap.map Prod.fst).Nodup ∧
    (str "x", [str "@/a", str "@/b"]) ∈ ambigMap ∧
    (str "x") ∈ (buildStableReplacementMap ambigMap).conflicts ∧
    (∀ e ∈ collectEdits (refsDecision (buildStableReplacementMap ambigMap).stableMap)
        [ambigLit], e.start ≠ ambigLit.start) ∧
    (updatePathReferencesInFile (buildStableReplacementMap ambigMap).stableMap ambigText
        [ambigLit]).changed = false := by
  have h1 : (ambigMap.map Prod.fst).Nodup := by
    simp [ambigMap, List.nodup_cons, str]
  have h2 : (str "x", [str "@/a", str "@/b"]) ∈ ambigMap := by decide
  have hthm := ambiguity_exclusion ambigMap h1
  refine ⟨h1, h2, hthm.2.1 _ _ h2 (by decide), ?_, by decide⟩
  exact hthm.2.2 _ _ h2 (by decide) [ambigLit] ambigLit (List.mem_singleton.mpr rfl) rfl
    (by simp)

/-- C6.  A bare specifier whose leading path segment names an installed
node_modules package reachable by upward search is never rewritten: no
replacement is queued and a file containing it gains no edit and no
rename pair, even when a matcher produced a candidate alias. -/
theorem shadow_suppression (env : Env) (spec p : Str)
    (hrel : isRelative spec = false)
    (hp : getPackageNameFromSpecifier spec = some p)
    (hn : hasNodeModulesPackage p env.fileDir env.rootAbs env.fsx = true) :
    rewriteDecision env spec = none ∧
    ∀ (sourceText : Str) (l : Lit), l.text = spec →
      updateImportsInFile env sourceText [l] = ⟨false, sourceText, []⟩ := by
  have h0 := rewriteDecision_shadow hrel hp hn
  refine ⟨h0, ?_⟩
  intro sourceText l hl
  have hdec : litDecision env l = none := by
    unfold litDecision
    split
    · rw [hl]; exact h0
    · rfl
  have hone : ∀ x ∈ [l], litDecision env x = none := by
    intro x hx
    rw [List.mem_singleton.mp hx]
    exact hdec
  have hedits : collectEdits (litDecision env) [l] = [] := collectEdits_eq_nil_iff.mpr hone
  have hpairs : collectPairs (litDecision env) [l] = [] := collectPairs_eq_nil_iff.mpr hone
  unfold updateImportsInFile
  rw [hedits, hpairs]
  rfl

/-- C6 witness: under { "@/*": ["src/*"] } with src/react.ts present the
matcher yields the candidate "@/react" for the bare specifier react, yet
the installed node_modules/react suppresses the rewrite. -/
theorem shadow_suppression_witness :
    resolveBareAlias (str "react") shadowEnv.matchers shadowEnv.baseUrl shadowEnv.rootAbs
        false shadowEnv.fsx = some (str "@/react") ∧
    rewriteDecision shadowEnv (str "react") = none ∧
    updateImportsInFile shadowEnv (str "import x from \"react\";")
        [⟨15, str "react", str "react", LitKind.staticSpec, false⟩]
      = ⟨false, str "import x from \"react\";", []⟩ := by
  have hthm := shadow_suppression shadowEnv (str "react") (str "react")
    (by decide) (by decide) (by decide)
  exact ⟨by decide, hthm.1,
    hthm.2 (str "import x from \"react\";")
      ⟨15, str "react", str "react", LitKind.staticSpec, false⟩ rfl⟩

/-- C7 counterexample.  The first argument of a dynamic import() call is
not excluded by isImportExportModuleSpecifier: with the stable map
sending "components/X" to "@/components/X" the argument literal of the
dynamic call import("components/X") is replaced by the propagation pass,
contradicting the claimed exclusion of dynamic-import specifiers. -/
theorem dynamic_import_argument_replaced :
    ParseOK dynText [dynLit] ∧
    dynLit.kind = LitKind.dynamicArg ∧
    (updatePathReferencesInFile dynMap dynText [dynLit]).changed = true ∧
    (updatePathReferencesInFile dynMap dynText [dynLit]).text
      = str "import(\"@/components/X\");" := by
  decide

/-- C7 amended: the reference-propagation pass replaces a literal only
when its exact text is a key of the map (with a nonempty, different
value), and never a literal that is the module specifier of a static
declaration (import or export); the argument of a dynamic import() call
is not excluded (see the counterexample). -/
theorem reference_propagation_exact_match (replacementMap : List (Str × Str))
    (lits : List Lit) :
    (∀ e ∈ collectEdits (refsDecision replacementMap) lits,
      ∃ l ∈ lits, l.kind ≠ LitKind.staticSpec ∧
        mapGet replacementMap l.text = some e.text ∧ e.text ≠ l.text ∧
        e = editFor l e.text) ∧
    (∀ l ∈ lits, l.kind = LitKind.staticSpec →
      List.Pairwise (fun a b => a.start ≠ b.start) lits →
      ∀ e ∈ collectEdits (refsDecision replacementMap) lits, e.start ≠ l.start) := by
  have hmain : ∀ e ∈ collectEdits (refsDecision replacementMap) lits,
      ∃ l ∈ lits, l.kind ≠ LitKind.staticSpec ∧
        mapGet replacementMap l.text = some e.text ∧ e.text ≠ l.text ∧
        e = editFor l e.text := by
    intro e he
    rcases collectEdits_mem he with ⟨l, hl, a, hdec, hea⟩
    rcases refsDecision_some hdec with ⟨hstatic, hget, _, hnet⟩
    subst hea
    refine ⟨l, hl, ?_, hget, hnet, rfl⟩
    intro hk
    have : isImportExportModuleSpecifier l = true := by
      unfold isImportExportModuleSpecifier
      rw [hk]
      decide
    rw [this] at hstatic
    exact absurd hstatic (by simp)
  refine ⟨hmain, ?_⟩
  intro l hl hk hpw e he
  rcases hmain e he with ⟨l', hl', hk', _, _, hee⟩
  have hne2 : l' ≠ l := fun h => hk' (h ▸ hk)
  have hstart : l'.start ≠ l.start :=
    List.Pairwise.forall (fun _ _ hab => Ne.symm hab) hpw hl' hl hne2
  rw [hee]
  exact hstart

/-- C7 amended witness: the single edit of the dynamic-import example
satisfies the exact-match characterisation. -/
theorem reference_propagation_exact_match_witness :
    (⟨8, 20, str "@/components/X"⟩ : Edit)
        ∈ collectEdits (refsDecision dynMap) [dynLit] ∧
    ∃ l ∈ [dynLit], l.kind ≠ LitKind.staticSpec ∧
      mapGet dynMap l.text = some (⟨8, 20, str "@/components/X"⟩ : Edit).text ∧
      (⟨8, 20, str "@/components/X"⟩ : Edit).text ≠ l.text ∧
      (⟨8, 20, str "@/components/X"⟩ : Edit)
        = editFor l (⟨8, 20, str "@/components/X"⟩ : Edit).text := by
  have hmem : (⟨8, 20, str "@/components/X"⟩ : Edit)
      ∈ collectEdits (refsDecision dynMap) [dynLit] := by decide
  exact ⟨hmem, (reference_propagation_exact_match dynMap [dynLit]).1 _ hmem⟩

/-- C8.  Wildcard round trip: for the single mapping
{ "@/*": ["src/*"] } with base directory root (a normalised absolute
path), buildAliasForTarget on root/src/components/Hello.tsx yields
"@/components/Hello.tsx" when the extension is kept and
"@/components/Hello" when it is not. -/
theorem wildcard_roundtrip (root : Str) (segs : List Str)
    (hne : segs ≠ [])
    (hclean : ∀ s ∈ segs, CleanSeg s ∧ '/' ∉ s)
    (hroot : root = str "/" ++ List.intercalate (str "/") segs) :
    buildAliasMatchers [(str "@/*", [str "src/*"])] root
      = some ⟨root, [⟨str "@/", [], root ++ str "/src", [], true⟩]⟩ ∧
    buildAliasForTarget (root ++ str "/src/components/Hello.tsx")
        (buildMatcherList root [(str "@/*", [str "src/*"])]) true
      = some (str "@/components/Hello.tsx") ∧
    buildAliasForTarget (root ++ str "/src/components/Hello.tsx")
        (buildMatcherList root [(str "@/*", [str "src/*"])]) false
      = some (str "@/components/Hello") := by
  have hres := pathResolve_srcSlash hne hclean hroot
  have hm : buildMatcherList root [(str "@/*", [str "src/*"])]
      = [⟨str "@/", [], root ++ str "/src", [], true⟩] := by
    show [(⟨str "@/", [], pathResolve root (str "src/"), [], true⟩ : AliasMatcher)] = _
    rw [hres]
  have htar : root ++ str "/src/components/Hello.tsx"
      = (root ++ str "/src") ++ str "/components/Hello.tsx" := by
    have h1 : str "/src/components/Hello.tsx"
        = str "/src" ++ str "/components/Hello.tsx" := by decide
    rw [h1, ← List.append_assoc]
  have hpre : List.isPrefixOf (root ++ str "/src")
      ((root ++ str "/src") ++ str "/components/Hello.tsx") = true :=
    isPrefixOf_append _ _
  have hdrop : ((root ++ str "/src") ++ str "/components/Hello.tsx").drop
      (root ++ str "/src").length = str "/components/Hello.tsx" := List.drop_left _ _
  have hcand : ∀ k : Bool,
      targetCandidates ((root ++ str "/src") ++ str "/components/Hello.tsx")
        [⟨str "@/", [], root ++ str "/src", [], true⟩] k
      = [if k then str "@/components/Hello.tsx" else str "@/components/Hello"] := by
    intro k
    unfold targetCandidates
    simp only [List.filterMap_cons, List.filterMap_nil]
    rw [hpre, hdrop]
    cases k <;> decide
  refine ⟨?_, ?_, ?_⟩
  · show some (⟨root, buildMatcherList root [(str "@/*", [str "src/*"])]⟩ : AliasInfo) = _
    rw [hm]
  · unfold buildAliasForTarget
    rw [hm, htar, hcand true]
    decide
  · unfold buildAliasForTarget
    rw [hm, htar, hcand false]
    decide

/-- C8 witness at the concrete root /proj. -/
theorem wildcard_roundtrip_witness :
    buildAliasMatchers [(str "@/*", [str "src/*"])] (str "/proj")
      = some ⟨str "/proj", [⟨str "@/", [], str "/proj" ++ str "/src", [], true⟩]⟩ ∧
    buildAliasForTarget (str "/proj" ++ str "/src/components/Hello.tsx")
        (buildMatcherList (str "/proj") [(str "@/*", [str "src/*"])]) true
      = some (str "@/components/Hello.tsx") ∧
    buildAliasForTarget (str "/proj" ++ str "/src/components/Hello.tsx")
        (buildMatcherList (str "/proj") [(str "@/*", [str "src/*"])]) false
      = some (str "@/components/Hello") :=
  wildcard_roundtrip (str "/proj") [str "proj"] (by decide) (by decide) (by decide)

/-- C9.  Under the parse invariant the edits produced for one file (in
both passes) are pairwise non-overlapping ranges, and applying them
against the original text in descending start order yields exactly the
original text with each recorded range replaced by its replacement. -/
theorem edits_disjoint_and_descending_application (env : Env) (sourceText : Str)
    (lits : List Lit) (replacementMap : List (Str × Str))
    (hp : ParseOK sourceText lits) :
    (List.Pairwise (fun a b => a.stop ≤ b.start) (collectEdits (litDecision env) lits) ∧
      (updateImportsInFile env sourceText lits).text
        = replaceEachRange (collectEdits (litDecision env) lits) sourceText) ∧
    (List.Pairwise (fun a b => a.stop ≤ b.start)
        (collectEdits (refsDecision replacementMap) lits) ∧
      (updatePathReferencesInFile replacementMap sourceText lits).text
        = replaceEachRange (collectEdits (refsDecision replacementMap) lits) sourceText) := by
  have h1 := @edits_wf_of_parseOK (litDecision env) _ _ hp
  have h2 := @edits_wf_of_parseOK (refsDecision replacementMap) _ _ hp
  exact ⟨⟨h1.1.imp (fun h => Nat.le_of_lt h), updateImports_text hp⟩,
    ⟨h2.1.imp (fun h => Nat.le_of_lt h), updatePathReferences_text hp⟩⟩

/-- C9 witness on the two-import file. -/
theorem edits_disjoint_witness :
    ParseOK hashText [hashLitA, hashLitB] ∧
    (List.Pairwise (fun a b => a.stop ≤ b.start)
        (collectEdits (litDecision hashEnv) [hashLitA, hashLitB]) ∧
      (updateImportsInFile hashEnv hashText [hashLitA, hashLitB]).text
        = replaceEachRange (collectEdits (litDecision hashEnv) [hashLitA, hashLitB])
            hashText) ∧
    (List.Pairwise (fun a b => a.stop ≤ b.start)
        (collectEdits (refsDecision dynMap) [hashLitA, hashLitB]) ∧
      (updatePathReferencesInFile dynMap hashText [hashLitA, hashLitB]).text
        = replaceEachRange (collectEdits (refsDecision dynMap) [hashLitA, hashLitB])
            hashText) := by
  have hp : ParseOK hashText [hashLitA, hashLitB] := by decide
  exact ⟨hp, edits_disjoint_and_descending_application hashEnv hashText
    [hashLitA, hashLitB] dynMap hp⟩

/-- C10 counterexample.  The decisions compare the cooked text of a
literal while the edit replaces its raw span: for the escaped specifier
text import "a\"b"; whose cooked text a"b resolves to the alias a\"b (equal
to the raw span), the run reports changed = true and records a rename
pair whose sides differ, yet the returned text is exactly the input, so
changed = true does not imply that the text changed. -/
theorem changed_without_text_change :
    ParseOK escText [escLit] ∧
    (updateImportsInFile escEnv escText [escLit]).changed = true ∧
    (updateImportsInFile escEnv escText [escLit]).updatedPathPairs
      = [(str "a\"b", str "a\\\"b")] ∧
    (updateImportsInFile escEnv escText [escLit]).text = escText := by
  decide

/-- C10 amended: changed = true exactly when an edit was recorded,
exactly when the rename-pair list is nonempty; with changed = false the
returned text is the input; every queued replacement differs from the
cooked text of its literal; and the returned text differs from the
input whenever the total replacement length differs from the total
replaced-span length (with equal totals the text can coincide with the
input, as in the counterexample). -/
theorem changed_flag_amended (env : Env) (sourceText : Str) (lits : List Lit)
    (hp : ParseOK sourceText lits) :
    ((updateImportsInFile env sourceText lits).changed = true
      ↔ collectEdits (litDecision env) lits ≠ []) ∧
    ((updateImportsInFile env sourceText lits).changed = true
      ↔ (updateImportsInFile env sourceText lits).updatedPathPairs ≠ []) ∧
    ((updateImportsInFile env sourceText lits).changed = false
      → (updateImportsInFile env sourceText lits).text = sourceText) ∧
    (∀ l ∈ lits, ∀ a, litDecision env l = some a → a ≠ l.text) ∧
    (replSum (collectEdits (litDecision env) lits)
        ≠ spanSum (collectEdits (litDecision env) lits)
      → (updateImportsInFile env sourceText lits).text ≠ sourceText) := by
  have hchanged := updateImports_changed env sourceText lits
  refine ⟨hchanged, ?_, ?_, ?_, ?_⟩
  · rw [hchanged, updateImports_pairs]
    constructor
    · intro he hp'
      exact he (collectEdits_eq_nil_iff.mpr (collectPairs_eq_nil_iff.mp hp'))
    · intro hp' he
      exact hp' (collectPairs_eq_nil_iff.mpr (collectEdits_eq_nil_iff.mp he))
  · intro hch
    unfold updateImportsInFile at hch ⊢
    by_cases h : (collectEdits (litDecision env) lits).isEmpty = true
    · rw [if_pos h]
    · rw [if_neg h] at hch
      exact absurd hch (by simp)
  · intro l _ a hdec
    exact litDecision_ne hdec
  · intro hne heq
    rcases @edits_wf_of_parseOK (litDecision env) _ _ hp with ⟨hpw, hwf⟩
    have hle := hpw.imp (fun h => Nat.le_of_lt h)
    have hlen := length_replaceEachRange hle hwf
    rw [updateImports_text hp] at heq
    rw [heq] at hlen
    omega

/-- C10 amended witness: on the two-import file the totals differ (the
aliases are shorter), so the returned text differs from the input. -/
theorem changed_flag_witness :
    ParseOK hashText [hashLitA, hashLitB] ∧
    replSum (collectEdits (litDecision hashEnv) [hashLitA, hashLitB])
      ≠ spanSum (collectEdits (litDecision hashEnv) [hashLitA, hashLitB]) ∧
    (updateImportsInFile hashEnv hashText [hashLitA, hashLitB]).text ≠ hashText := by
  have hp : ParseOK hashText [hashLitA, hashLitB] := by decide
  have hne : replSum (collectEdits (litDecision hashEnv) [hashLitA, hashLitB])
      ≠ spanSum (collectEdits (litDecision hashEnv) [hashLitA, hashLitB]) := by decide
  exact ⟨hp, hne,
    (changed_flag_amended hashEnv hashText [hashLitA, hashLitB] hp).2.2.2.2 hne⟩

end ShortenImports


